import Mathlib

/-- Virtual DOM node (`VNode` in `src/vdom/node.rs`), with the `VElement`
fields of `src/vdom/element.rs` inlined: tag, optional key, attribute map
(association list), class set (list), ordered children.  `Text` carries the
content string of `VText` (`src/vdom/text.rs`). -/
inductive VNode where
  | Element (tag : String) (key : Option String)
      (attributes : List (String × String)) (classes : List String)
      (children : List VNode)
  | Text (content : String)

/-- `VNode::key` from `src/vdom/node.rs`: the element key, `none` for text. -/
def VNode.key : VNode → Option String
  | .Element _ k _ _ _ => k
  | .Text _ => none

/-- Attribute operations (`AttrOp` in `src/vdom/diff.rs`). -/
inductive AttrOp where
  | InsertClass (name : String)
  | RemoveClass (name : String)
  | Insert (name value : String)
  | Update (name value : String)
  | Remove (name : String)
deriving DecidableEq

/-- Node operations (`NodeOp` in `src/vdom/diff.rs`).  `Replace` stores the
new node by value (the Rust code stores a borrowed reference). -/
inductive NodeOp where
  | Skip (n : Nat)
  | Remove (n : Nat)
  | Move (position : Nat) (attrs : Option (List AttrOp))
      (children : Option (List NodeOp)) (inserts : Option (List (Nat × VNode)))
  | Update (attrs : Option (List AttrOp))
      (children : Option (List NodeOp)) (inserts : Option (List (Nat × VNode)))
  | Replace (node : VNode)

/-- Pending slot of the compression queue (`LastOp` in `src/utils/op_queue.rs`). -/
inductive LastOp where
  | None
  | Skip (n : Nat)
  | Remove (n : Nat)
deriving DecidableEq

/-- The patch-compression queue (`OpQueue` in `src/utils/op_queue.rs`). -/
structure OpQueue where
  last : LastOp
  queue : List NodeOp

/-- `OpQueue::new`. -/
def OpQueue.new : OpQueue := ⟨LastOp.None, []⟩

/-- `OpQueue::push`: coalesces consecutive `Skip` / `Remove` into the pending
slot, flushing it on a non-matching push.  The arms mirror the Rust `match`
on `(self.last.clone(), op)` in order. -/
def OpQueue.push (q : OpQueue) (op : NodeOp) : OpQueue :=
  match q.last, op with
  | LastOp.None, NodeOp.Skip c => ⟨LastOp.Skip c, q.queue⟩
  | LastOp.None, NodeOp.Remove c => ⟨LastOp.Remove c, q.queue⟩
  | LastOp.None, op => ⟨LastOp.None, q.queue ++ [op]⟩
  | LastOp.Skip lc, NodeOp.Skip c => ⟨LastOp.Skip (c + lc), q.queue⟩
  | LastOp.Skip lc, NodeOp.Remove c => ⟨LastOp.Remove c, q.queue ++ [NodeOp.Skip lc]⟩
  | LastOp.Skip lc, op => ⟨LastOp.None, q.queue ++ [NodeOp.Skip lc, op]⟩
  | LastOp.Remove lc, NodeOp.Remove c => ⟨LastOp.Remove (c + lc), q.queue⟩
  | LastOp.Remove lc, NodeOp.Skip c => ⟨LastOp.Skip c, q.queue ++ [NodeOp.Remove lc]⟩
  | LastOp.Remove lc, op => ⟨LastOp.None, q.queue ++ [NodeOp.Remove lc, op]⟩

/-- `OpQueue::remove_single_skip`: if the whole queue is a single pending
`Skip`, drop it. -/
def OpQueue.remove_single_skip (q : OpQueue) : OpQueue :=
  match q.queue.length, q.last with
  | 0, LastOp.Skip _ => ⟨LastOp.None, q.queue⟩
  | _, _ => q

/-- `OpQueue::done`: flush the pending slot and return the vector. -/
def OpQueue.done (q : OpQueue) : List NodeOp :=
  match q.last with
  | LastOp.Skip c => q.queue ++ [NodeOp.Skip c]
  | LastOp.Remove c => q.queue ++ [NodeOp.Remove c]
  | LastOp.None => q.queue

/-- Pushing a whole list of operations in order. -/
def OpQueue.pushAll (q : OpQueue) (ops : List NodeOp) : OpQueue :=
  ops.foldl OpQueue.push q

/-- First-match association-list lookup, modelling `HashMap::get` for the
attribute maps (which have unique keys). -/
def lookupA (attrs : List (String × String)) (k : String) : Option String :=
  match attrs with
  | [] => none
  | kv :: rest => if kv.1 = k then some kv.2 else lookupA rest k

/-- Last-writer-wins association lookup, modelling lookup in a `HashMap`
built by repeated `insert` (`new_children_key_index` in `diff_middles`). -/
def lookupLast (idx : List (String × Nat)) (k : String) : Option Nat :=
  idx.foldl (fun acc kv => if kv.1 = k then some kv.2 else acc) none

/-- In-bounds list update, modelling `v[i] = a` on a Rust `Vec` (out of
bounds is a panic, i.e. `none`). -/
def setO {α : Type} (l : List α) (i : Nat) (a : α) : Option (List α) :=
  if i < l.length then some (l.set i a) else none

/-- The `match` wrapping a per-node diff into a `Move` in `diff_middles`:
an `Update` payload is carried over, every other op is downgraded to a bare
`Move`. -/
def moveOf (position : Nat) (d : NodeOp) : NodeOp :=
  match d with
  | NodeOp.Update a u i => NodeOp.Move position a u i
  | _ => NodeOp.Move position none none none

/-- The common-prefix loop of `diff_children`: walk both lists from the
front while `old_children[i].key() == new_children[i].key()`.  The loop in
the source runs to `max_prefix_len = min(old_len, new_len)`, which is where
the structural recursion stops as well. -/
def commonPrefixLen : List VNode → List VNode → Nat
  | o :: os, n :: ns => if o.key = n.key then 1 + commonPrefixLen os ns else 0
  | _, _ => 0

/-- The common-suffix loop of `diff_children`, expressed on the reversed
lists: walk while keys agree, for at most `cap = max_suffix_len` steps. -/
def commonSuffixLenAux : Nat → List VNode → List VNode → Nat
  | cap + 1, o :: os, n :: ns =>
      if o.key = n.key then 1 + commonSuffixLenAux cap os ns else 0
  | _, _, _ => 0

/-- The body of the key loop of `diff_attributes`: the op emitted for one
key of the union of the two attribute-key sets. -/
def attr_op_for (old_attributes new_attributes : List (String × String))
    (k : String) : Option AttrOp :=
  match lookupA old_attributes k, lookupA new_attributes k with
  | some _, none => some (AttrOp.Remove k)
  | none, some v => some (AttrOp.Insert k v)
  | some old_value, some new_value =>
      if old_value ≠ new_value then some (AttrOp.Update k new_value) else none
  | none, none => none

/-- The op vector built by `diff_attributes` (`src/vdom/diff.rs`): removed
classes, then inserted classes, then one op per key of the union of the two
attribute-key sets. -/
def attr_diff_ops (old_classes new_classes : List String)
    (old_attributes new_attributes : List (String × String)) : List AttrOp :=
  let remove_classes :=
    (old_classes.filter (fun c => decide (c ∉ new_classes))).map AttrOp.RemoveClass
  let insert_classes :=
    (new_classes.filter (fun c => decide (c ∉ old_classes))).map AttrOp.InsertClass
  let keys := (old_attributes.map Prod.fst ++ new_attributes.map Prod.fst).dedup
  let attr_ops := keys.filterMap (attr_op_for old_attributes new_attributes)
  remove_classes ++ insert_classes ++ attr_ops

/-- `diff_attributes`: the op vector if non-empty, absent otherwise. -/
def diff_attributes (old_classes new_classes : List String)
    (old_attributes new_attributes : List (String × String)) : Option (List AttrOp) :=
  let d := attr_diff_ops old_classes new_classes old_attributes new_attributes
  if d.length > 0 then some d else none

/-- The binary-search loop of `positions_lis`: find the leftmost slot in
`m[lo..=hi]` whose entry's position is not less than `p_i`.  `gas` bounds
the iteration count (the source loop terminates because the interval
shrinks); indexing failures are panics (`none`). -/
def bsearch (positions : List (Option Nat)) (m : List Nat) (p_i : Nat) :
    Nat → Nat → Nat → Option Nat
  | 0, _, _ => none
  | gas + 1, lo, hi =>
    if lo ≤ hi then
      let mid := (lo + hi) / 2
      match (m.get? mid).bind (fun idx => positions.get? idx) with
      | none => none
      | some (some p_mid) =>
          if p_mid < p_i then bsearch positions m p_i gas (mid + 1) hi
          else bsearch positions m p_i gas lo (mid - 1)
      | some none => bsearch positions m p_i gas (mid + 1) hi
    else some lo

/-- One iteration of the main loop of `positions_lis` (index `i`), acting on
the state `(m, p, l)`. -/
def lisStep (positions : List (Option Nat)) (state : List Nat × List Nat × Nat)
    (i : Nat) : Option (List Nat × List Nat × Nat) :=
  match state with
  | (m, p, l) =>
    match positions.get? i with
    | none => none
    | some none => some (m, p, l)
    | some (some p_i) => do
        let new_l ← bsearch positions m p_i (l + 2) 1 l
        let pred ← m.get? (new_l - 1)
        let p' ← setO p i pred
        let m' ← setO m new_l i
        some (m', p', if new_l > l then new_l else l)

/-- One iteration of the reconstruction loop of `positions_lis`: collect
`positions[k].unwrap()` (an absent entry or out-of-range `k` is a panic)
and follow the predecessor chain `k = p[k]`. -/
def lisRebuildStep (ps : List (Option Nat)) (pr : List Nat)
    (acc : List Nat × Nat) : Option (List Nat × Nat) :=
  match ps.get? acc.2 with
  | none => none
  | some none => none
  | some (some v) => do
      let k' ← pr.get? acc.2
      some (v :: acc.1, k')

/-- The reconstruction loop of `positions_lis`: starting from `k = m[l]`,
run `lisRebuildStep` for `l` steps; the source writes into `o` back to
front, which is the same as consing in collection order. -/
def lisRebuild (ps : List (Option Nat)) (pr : List Nat) (l k0 : Nat) :
    Option (List Nat) :=
  (List.range l).foldlM (fun acc _ => lisRebuildStep ps pr acc)
    (([] : List Nat), k0) |>.map Prod.fst

/-- `positions_lis` (`src/vdom/diff.rs`): patience construction of a longest
strictly-increasing subsequence over the defined entries, with tails array
`m`, predecessor array `p` and current length `l`. -/
def positions_lis (positions : List (Option Nat)) : Option (List Nat) := do
  let n := positions.length
  let st ← (List.range n).foldlM (lisStep positions)
      (List.replicate n 0, List.replicate n 0, 0)
  match st with
  | (m, p, l) => do
    let k0 ← m.get? l
    lisRebuild positions p l k0

/-- Queue finalisation of `diff_children`: push all planned ops, strip a
lone trailing `Skip`, and convert empty vectors to absent components. -/
def finalize_children (ops0 : List NodeOp) (ins : List (Nat × VNode)) :
    Option (List NodeOp) × Option (List (Nat × VNode)) :=
  let ops := ((OpQueue.new.pushAll ops0).remove_single_skip).done
  match ops.length, ins.length with
  | 0, 0 => (none, none)
  | 0, _ + 1 => (none, some ins)
  | _ + 1, 0 => (some ops, none)
  | _ + 1, _ + 1 => (some ops, some ins)

mutual

/-- `diff` (`src/vdom/diff.rs`), with explicit fuel.  Two elements are
compared by tag, then key; equal-header elements get an attribute diff and a
children diff, yielding `Skip(1)` when all three results are absent and an
`Update` otherwise.  Any other combination of node types (including two
texts) produces `Replace(&new)`. -/
def diffF : Nat → VNode → VNode → Option NodeOp
  | 0, _, _ => none
  | fuel + 1, old, new =>
    match old, new with
    | VNode.Element old_tag old_key old_attributes old_classes old_children,
      VNode.Element new_tag new_key new_attributes new_classes new_children =>
      if old_tag ≠ new_tag then
        some (NodeOp.Replace new)
      else if old_key ≠ new_key then
        some (NodeOp.Replace new)
      else
        let attr_diff := diff_attributes old_classes new_classes old_attributes new_attributes
        match diff_childrenF fuel old_children new_children with
        | none => none
        | some (children_diff, children_inserts) =>
          match attr_diff, children_diff, children_inserts with
          | none, none, none => some (NodeOp.Skip 1)
          | attr, children, inserts => some (NodeOp.Update attr children inserts)
    | _, _ => some (NodeOp.Replace new)

/-- The middle dispatch of `diff_children`: both middles empty, remove-only,
insert-only, or the keyed reconciler on the two middle slices. -/
def middle_ops : Nat → Nat → List VNode → List VNode → Nat → Nat →
    Option (List NodeOp × List (Nat × VNode))
  | 0, _, _, _, _, _ => none
  | fuel + 1, prefix_len, olds, news, old_middle_len, new_middle_len =>
    match old_middle_len, new_middle_len with
    | 0, 0 => some (([] : List NodeOp), ([] : List (Nat × VNode)))
    | m + 1, 0 => some ([NodeOp.Remove (m + 1)], [])
    | 0, k + 1 => do
        let ins ← (List.range' prefix_len (k + 1)).mapM (fun i => do
            let n ← news.get? i
            pure ((i, n) : Nat × VNode))
        some (([] : List NodeOp), ins)
    | om + 1, nm + 1 =>
        diff_middlesF fuel prefix_len
          ((olds.drop prefix_len).take (om + 1))
          ((news.drop prefix_len).take (nm + 1))

/-- `diff_children` (`src/vdom/diff.rs`), with explicit fuel: degenerate
cases, common prefix and suffix, middle dispatch, queue finalisation. -/
def diff_childrenF : Nat → List VNode → List VNode →
    Option (Option (List NodeOp) × Option (List (Nat × VNode)))
  | _, [], [] => some (none, none)
  | _, o :: os, [] => some (some [NodeOp.Remove (o :: os).length], none)
  | _, [], n :: ns => some (none, some (n :: ns).enum)
  | 0, _ :: _, _ :: _ => none
  | fuel + 1, olds, news =>
    let old_len := olds.length
    let new_len := news.length
    let max_prefix_len := min old_len new_len
    let prefix_len := commonPrefixLen olds news
    let max_suffix_len := max_prefix_len - prefix_len
    let suffix_len := commonSuffixLenAux max_suffix_len olds.reverse news.reverse
    let old_middle_len := old_len - (prefix_len + suffix_len)
    let new_middle_len := new_len - (prefix_len + suffix_len)
    do
    let prefix_ops ← (List.range prefix_len).mapM (fun i => do
        let o ← olds.get? i
        let n ← news.get? i
        diffF fuel o n)
    let middle ← middle_ops fuel prefix_len olds news old_middle_len new_middle_len
    let suffix_ops ← (List.range suffix_len).mapM (fun i => do
        let o ← olds.get? (old_len - suffix_len + i)
        let n ← news.get? (new_len - suffix_len + i)
        diffF fuel o n)
    some (finalize_children (prefix_ops ++ middle.1 ++ suffix_ops) middle.2)

/-- `diff_middles` (`src/vdom/diff.rs`), with explicit fuel: the keyed
reconciler over the two middle slices.  Returns the planned per-old-child
operations (pushed into the queue by `diff_children`) and the inserts.
A missing key (`key().unwrap()`) is a panic, i.e. `none`. -/
def diff_middlesF : Nat → Nat → List VNode → List VNode →
    Option (List NodeOp × List (Nat × VNode))
  | 0, _, _, _ => none
  | fuel + 1, offset, old_children, new_children => do
    let planned0 := List.replicate old_children.length (NodeOp.Skip 1)
    let kidx ← new_children.enum.mapM (fun (ic : Nat × VNode) =>
        match ic.2.key with
        | some k => some (k, ic.1)
        | none => none)
    let st ← old_children.enum.foldlM
      (fun (st : List (Option Nat) × Nat × Bool × Nat × List NodeOp) (ic : Nat × VNode) => do
        match ic.2.key with
        | none => none
        | some k =>
          match lookupLast kidx k with
          | some position => do
              let moved' := st.2.2.1 || decide (st.2.1 > position)
              let op' ← setO st.1 position (some ic.1)
              some (op', position, moved', st.2.2.2.1, st.2.2.2.2)
          | none => do
              let planned' ← setO st.2.2.2.2 ic.1 (NodeOp.Remove 1)
              some (st.1, st.2.1, st.2.2.1, st.2.2.2.1 + 1, planned'))
      (List.replicate new_children.length (none : Option Nat), 0, false, 0, planned0)
    let old_positions := st.1
    let moved := st.2.2.1
    let removed := st.2.2.2.1
    let planned1 := st.2.2.2.2
    let inserts ← if old_children.length - removed ≠ new_children.length then
        new_children.enum.foldlM (fun (acc : List (Nat × VNode)) (ic : Nat × VNode) =>
            match old_positions.get? ic.1 with
            | none => none
            | some none => some (acc ++ [(offset + ic.1, ic.2)])
            | some (some _) => some acc) ([] : List (Nat × VNode))
      else pure []
    let planned ← if moved then do
        let lis ← positions_lis old_positions
        let res ← old_children.enum.foldlM
          (fun (st : List NodeOp × Nat) (ic : Nat × VNode) => do
            match ic.2.key with
            | none => none
            | some k =>
              match lookupLast kidx k with
              | some new_position => do
                  let new_child ← new_children.get? new_position
                  let d ← diffF fuel ic.2 new_child
                  if st.2 < lis.length ∧ lis.get? st.2 = some ic.1 then do
                    let planned' ← setO st.1 ic.1 d
                    some (planned', st.2 + 1)
                  else do
                    let planned' ← setO st.1 ic.1 (moveOf (offset + new_position) d)
                    some (planned', st.2)
              | none => some (st.1, st.2))
          (planned1, 0)
        pure res.1
      else pure planned1
    pure (planned, inserts)

end

mutual

/-- Structural size of a node, used to bound the fuel of `diff`. -/
def nodeSize : VNode → Nat
  | .Text _ => 1
  | .Element _ _ _ _ cs => 1 + listSize cs

/-- Structural size of a children list. -/
def listSize : List VNode → Nat
  | [] => 0
  | c :: cs => 1 + nodeSize c + listSize cs

end

/-- `diff(old, new)`: the fuel `4 * nodeSize old` dominates the recursion
depth, which only ever descends along the old tree (at most four fuel
levels — `diff`, `diff_children`, its loop helpers and `diff_middles` — per
tree level). -/
def diff (old new : VNode) : Option NodeOp := diffF (4 * nodeSize old) old new

/-- Is the op a `Skip`? -/
def isSkip : NodeOp → Bool
  | NodeOp.Skip _ => true
  | _ => false

/-- Is the op a `Remove`? -/
def isRemove : NodeOp → Bool
  | NodeOp.Remove _ => true
  | _ => false

/-- Two adjacent emitted ops are compatible when they are not two `Skip`s
and not two `Remove`s. -/
def opsCompatible (a b : NodeOp) : Prop :=
  ¬(isSkip a = true ∧ isSkip b = true) ∧ ¬(isRemove a = true ∧ isRemove b = true)

/-- Does a push coalesce into the pending slot (same-kind `Skip`/`Remove`)? -/
def coalesces : LastOp → NodeOp → Bool
  | LastOp.Skip _, NodeOp.Skip _ => true
  | LastOp.Remove _, NodeOp.Remove _ => true
  | _, _ => false

/-- The ops held by the pending slot. -/
def LastOp.ops : LastOp → List NodeOp
  | LastOp.None => []
  | LastOp.Skip n => [NodeOp.Skip n]
  | LastOp.Remove n => [NodeOp.Remove n]

/-- Flushing the pending slot into the queue. -/
def OpQueue.flush (q : OpQueue) : OpQueue := ⟨LastOp.None, q.queue ++ q.last.ops⟩

/-- Expansion of an op list into unit `Skip`/`Remove` steps; two op lists
with the same expansion describe the same edit sequence, so preservation of
`flatten` states that `done()` preserves push order and total counts. -/
def flatten : List NodeOp → List NodeOp
  | [] => []
  | NodeOp.Skip n :: rest => List.replicate n (NodeOp.Skip 1) ++ flatten rest
  | NodeOp.Remove n :: rest => List.replicate n (NodeOp.Remove 1) ++ flatten rest
  | op :: rest => op :: flatten rest

/-- The last element of the queue vector is neither `Skip` nor `Remove`. -/
def endOK (l : List NodeOp) : Prop :=
  ∀ x, l.getLast? = some x → isSkip x = false ∧ isRemove x = false

/-- Internal invariant of the queue preserved by `push`. -/
def QInv (q : OpQueue) : Prop :=
  List.Chain' opsCompatible q.done ∧ (q.last = LastOp.None → endOK q.queue)

mutual

/-- No `Text` node anywhere in the subtree. -/
def textFree : VNode → Bool
  | .Text _ => false
  | .Element _ _ _ _ cs => textFreeList cs

/-- No `Text` node anywhere below a children list. -/
def textFreeList : List VNode → Bool
  | [] => true
  | c :: cs => textFree c && textFreeList cs

end

/-- Old-list positions consumed by one op: `Skip(n)` and `Remove(n)` consume
`n`; `Update`, `Move` and `Replace` consume one. -/
def consumed : NodeOp → Nat
  | NodeOp.Skip n => n
  | NodeOp.Remove n => n
  | _ => 1

/-- Total old-list positions consumed by an op vector. -/
def consumedList (ops : List NodeOp) : Nat := (ops.map consumed).sum

/-- The value of a defined entry of `positions` (0 for out of range or
absent; only used where definedness is known). -/
def valAt (ps : List (Option Nat)) (t : Nat) : Nat := (ps.getD t none).getD 0

/-- Index `t` holds a defined entry of `positions`. -/
def DefinedAt (ps : List (Option Nat)) (t : Nat) : Prop :=
  t < ps.length ∧ (ps.getD t none).isSome = true

/-- `idxs` is (the index list of) a strictly-increasing subsequence of the
defined entries of `positions`: indices strictly increase, each denotes a
defined entry, and the entry values strictly increase. -/
def IncSubseq (ps : List (Option Nat)) (idxs : List Nat) : Prop :=
  List.Pairwise (· < ·) idxs ∧ (∀ t ∈ idxs, DefinedAt ps t) ∧
    List.Pairwise (· < ·) (idxs.map (valAt ps))

/-- Validity of the predecessor chain of length `j` ending at index `k`,
with all indices below `i`. -/
def ChainGood (ps : List (Option Nat)) (pr : List Nat) (i : Nat) : Nat → Nat → Prop
  | 0, _ => True
  | 1, k => k < i ∧ DefinedAt ps k
  | j + 2, k => k < i ∧ DefinedAt ps k ∧ pr.getD k 0 < k ∧
      valAt ps (pr.getD k 0) < valAt ps k ∧ ChainGood ps pr i (j + 1) (pr.getD k 0)

/-- The index list obtained by following the predecessor chain `j` steps
down from `k` (with `k` last). -/
def chainIdxs (pr : List Nat) : Nat → Nat → List Nat
  | 0, _ => []
  | j + 1, k => chainIdxs pr j (pr.getD k 0) ++ [k]

/-- The loop invariant of the main loop of `positions_lis` after `i`
iterations on state `(m, p, l)`: array lengths, predecessor-chain validity
ending at each tails entry, strict growth of the tail values, and
minimality of each tails entry among subsequences drawn from `[0, i)`. -/
structure LisInv (ps : List (Option Nat)) (i : Nat) (m pr : List Nat) (l : Nat) : Prop where
  hm : m.length = ps.length
  hp : pr.length = ps.length
  hchain : ∀ j, 1 ≤ j → j ≤ l → ChainGood ps pr i j (m.getD j 0)
  hsorted : ∀ j j', 1 ≤ j → j < j' → j' ≤ l →
    valAt ps (m.getD j 0) < valAt ps (m.getD j' 0)
  hmin : ∀ idxs, IncSubseq ps idxs → (∀ t ∈ idxs, t < i) → idxs ≠ [] →
    idxs.length ≤ l ∧
      valAt ps (m.getD idxs.length 0) ≤ ((idxs.map (valAt ps)).getLast?).getD 0

/-- The suffix length computed by `diff_children` for a children pair
(`suffix_len` in the source): the capped common-suffix walk on the
reversed lists. -/
def suffixLen (olds news : List VNode) : Nat :=
  commonSuffixLenAux (min olds.length news.length - commonPrefixLen olds news)
    olds.reverse news.reverse

/-- The old middle slice of a children pair as cut by `diff_children`. -/
def oldMiddle (olds news : List VNode) : List VNode :=
  (olds.drop (commonPrefixLen olds news)).take
    (olds.length - (commonPrefixLen olds news + suffixLen olds news))

/-- The new middle slice of a children pair as cut by `diff_children`. -/
def newMiddle (olds news : List VNode) : List VNode :=
  (news.drop (commonPrefixLen olds news)).take
    (news.length - (commonPrefixLen olds news + suffixLen olds news))

/-- The keyed-middle condition of C9 on a pair of middle slices, relative
to a pairwise validity relation `V`: every child of both middles carries a
key, keys are unique among siblings on each side, and any old/new middle
children sharing a key form a `V`-valid pair (these are exactly the pairs
the keyed reconciler diffs). -/
def MiddleOKWith (V : VNode → VNode → Prop) (omid nmid : List VNode) : Prop :=
  (∀ c ∈ omid, (VNode.key c).isSome = true) ∧
  (∀ c ∈ nmid, (VNode.key c).isSome = true) ∧
  (omid.filterMap VNode.key).Nodup ∧
  (nmid.filterMap VNode.key).Nodup ∧
  (∀ c ∈ omid, ∀ n ∈ nmid, VNode.key c = VNode.key n → V c n)

mutual

/-- The C9 precondition on a pair of trees: along every children
comparison the reconciler performs, whenever both middle regions (after
common-prefix and common-suffix trimming) are non-empty, every child of
both middles carries a key and keys are unique among siblings.  Pairs the
reconciler replaces wholesale (text on either side, differing tags or
differing keys) are unconditionally valid. -/
inductive Valid : VNode → VNode → Prop
  | textL : ∀ (s : String) (new : VNode), Valid (VNode.Text s) new
  | textR : ∀ (old : VNode) (s : String), Valid old (VNode.Text s)
  | tag_ne : ∀ ot ok oa ocl ochs nt nk na ncl nchs, ot ≠ nt →
      Valid (VNode.Element ot ok oa ocl ochs) (VNode.Element nt nk na ncl nchs)
  | key_ne : ∀ t ok oa ocl ochs nk na ncl nchs, ok ≠ nk →
      Valid (VNode.Element t ok oa ocl ochs) (VNode.Element t nk na ncl nchs)
  | elems : ∀ t k oa ocl ochs na ncl nchs, ValidChildren ochs nchs →
      Valid (VNode.Element t k oa ocl ochs) (VNode.Element t k na ncl nchs)

/-- The C9 precondition on a pair of children vectors: the common-prefix
pairs are valid, the common-suffix pairs are valid, and if both middles
are non-empty the keyed-middle condition holds for them (including
validity of the key-matched pairs). -/
inductive ValidChildren : List VNode → List VNode → Prop
  | oldNil : ∀ news, ValidChildren [] news
  | newNil : ∀ olds, ValidChildren olds []
  | main : ∀ olds news,
      (∀ i o n, i < commonPrefixLen olds news → olds.get? i = some o →
        news.get? i = some n → Valid o n) →
      (∀ i o n, i < suffixLen olds news →
        olds.get? (olds.length - suffixLen olds news + i) = some o →
        news.get? (news.length - suffixLen olds news + i) = some n → Valid o n) →
      (1 ≤ olds.length - (commonPrefixLen olds news + suffixLen olds news) →
        1 ≤ news.length - (commonPrefixLen olds news + suffixLen olds news) →
        ∀ c ∈ oldMiddle olds news, (VNode.key c).isSome = true) →
      (1 ≤ olds.length - (commonPrefixLen olds news + suffixLen olds news) →
        1 ≤ news.length - (commonPrefixLen olds news + suffixLen olds news) →
        ∀ c ∈ newMiddle olds news, (VNode.key c).isSome = true) →
      (1 ≤ olds.length - (commonPrefixLen olds news + suffixLen olds news) →
        1 ≤ news.length - (commonPrefixLen olds news + suffixLen olds news) →
        ((oldMiddle olds news).filterMap VNode.key).Nodup) →
      (1 ≤ olds.length - (commonPrefixLen olds news + suffixLen olds news) →
        1 ≤ news.length - (commonPrefixLen olds news + suffixLen olds news) →
        ((newMiddle olds news).filterMap VNode.key).Nodup) →
      (1 ≤ olds.length - (commonPrefixLen olds news + suffixLen olds news) →
        1 ≤ news.length - (commonPrefixLen olds news + suffixLen olds news) →
        ∀ c ∈ oldMiddle olds news, ∀ n ∈ newMiddle olds news,
          VNode.key c = VNode.key n → Valid c n) →
      ValidChildren olds news

end

/-- Invariant of the scan loop of `diff_middles` after the first `t` old
children, on state `st = (old_positions, last_position, moved, removed,
planned)`: array lengths; provenance of every defined `old_positions`
entry (it records a processed old child whose key the new key index sends
to that position); the last matched position points at a defined entry;
and once `moved` is set there are two entries at decreasing new positions
holding increasing old indices. -/
structure ScanInv (omid nmid : List VNode) (kidx : List (String × Nat)) (t : Nat)
    (st : List (Option Nat) × Nat × Bool × Nat × List NodeOp) : Prop where
  hops : st.1.length = nmid.length
  hplan : st.2.2.2.2.length = omid.length
  hent : ∀ p i, st.1.getD p none = some i → p < nmid.length ∧ i < t ∧
    ∃ c, omid.get? i = some c ∧ ∃ k, VNode.key c = some k ∧ lookupLast kidx k = some p
  hlastp : st.2.1 = 0 ∨ ∃ i, st.1.getD st.2.1 none = some i
  hmoved : st.2.2.1 = true → ∃ p1 p2 i1 i2, p2 < p1 ∧ p1 < nmid.length ∧ i1 < i2 ∧
    st.1.getD p1 none = some i1 ∧ st.1.getD p2 none = some i2

/-!
# Verification of the troy virtual-DOM diff engine

This file gives a shallow embedding of the core of the troy repository
(`src/vdom/node.rs`, `src/vdom/element.rs`, `src/vdom/text.rs`,
`src/vdom/diff.rs`, `src/utils/op_queue.rs`) and proves properties of the
diff algorithm, the attribute diff, the keyed middle reconciler, the
longest-increasing-subsequence routine and the patch-compression queue.

Modelling conventions:
* `HashSet<CowString>` (classes) is modelled as `List String`; the diff only
  uses membership-based difference, which is order-insensitive.
* `HashMap<CowString, CowString>` (attributes) is modelled as an association
  list `List (String × String)` read through first-match lookup; the key set
  iterated by `diff_attributes` is modelled as the deduplicated union of the
  two key lists.
* `HashMap<&CowString, usize>` (`new_children_key_index`) is modelled as the
  association list of `(key, index)` pairs in insertion order, read through
  last-writer-wins lookup, which is exactly the behaviour of repeated
  `HashMap::insert`.
* Rust panics (`unwrap` on `None`, out-of-bounds indexing) are modelled by
  the `Option` monad: a panic is `none`.
* The recursion of `diff` / `diff_children` / `diff_middles` is driven by an
  explicit fuel parameter so that all definitions are structurally recursive
  and kernel-reducible; `diff` instantiates the fuel with `sizeOf old`,
  which is proved sufficient where needed.
-/

/-! ## C1 — text-to-text diffing -/

/-- C1: the claim states that diffing two `Text` nodes with equal contents
yields `Skip(1)`.  The code instead hits the catch-all arm of the `match` in
`diff` and returns `Replace(&new)` for any two text nodes, equal contents or
not: at the failing input `old = new = Text "a"` the result is
`Replace(Text "a")`, which is not `Skip(1)`. -/
theorem C1_text_text_replace :
    diff (VNode.Text "a") (VNode.Text "a") = some (NodeOp.Replace (VNode.Text "a")) ∧
    NodeOp.Replace (VNode.Text "a") ≠ NodeOp.Skip 1 := by
  refine ⟨rfl, fun h => NodeOp.noConfusion h⟩

/-! ## C7 — concrete scenario S5 -/

/-- C7: scenario S5.  Old children are keyed `c1..c5`; the new children are
`c2` (with a new `p` child), `c1` (with class `aaa` added), `c3`, `c5`,
`c4`.  The diff of the parents is exactly
`Update(absent, [Update([InsertClass aaa],absent,absent),
Move(0,absent,absent,[(0,&p)]), Skip(2), Move(3,absent,absent,absent)],
absent)`.  Additionally, the `Move` wrapper of `diff_middles` (`moveOf`)
carries the payload of a per-node `Update` diff and downgrades every other
op to `Move(newIndex, absent, absent, absent)`. -/
theorem C7_scenario_s5 :
    diff
      (VNode.Element "div" (some "p") [] []
        [VNode.Element "p" (some "c1") [] [] [],
         VNode.Element "p" (some "c2") [] [] [],
         VNode.Element "p" (some "c3") [] [] [],
         VNode.Element "p" (some "c4") [] [] [],
         VNode.Element "p" (some "c5") [] [] []])
      (VNode.Element "div" (some "p") [] []
        [VNode.Element "p" (some "c2") [] [] [VNode.Element "p" none [] [] []],
         VNode.Element "p" (some "c1") [] ["aaa"] [],
         VNode.Element "p" (some "c3") [] [] [],
         VNode.Element "p" (some "c5") [] [] [],
         VNode.Element "p" (some "c4") [] [] []])
    = some (NodeOp.Update none
        (some [NodeOp.Update (some [AttrOp.InsertClass "aaa"]) none none,
               NodeOp.Move 0 none none (some [(0, VNode.Element "p" none [] [] [])]),
               NodeOp.Skip 2,
               NodeOp.Move 3 none none none])
        none) ∧
    (∀ pos a u i, moveOf pos (NodeOp.Update a u i) = NodeOp.Move pos a u i) ∧
    (∀ pos n, moveOf pos (NodeOp.Skip n) = NodeOp.Move pos none none none) ∧
    (∀ pos n, moveOf pos (NodeOp.Remove n) = NodeOp.Move pos none none none) ∧
    (∀ pos x, moveOf pos (NodeOp.Replace x) = NodeOp.Move pos none none none) ∧
    (∀ pos q a u i, moveOf pos (NodeOp.Move q a u i) = NodeOp.Move pos none none none) :=
  ⟨rfl, fun _ _ _ _ => rfl, fun _ _ => rfl, fun _ _ => rfl, fun _ _ => rfl,
   fun _ _ _ _ _ => rfl⟩

/-! ## C8 — compression-queue algebra -/

theorem flatten_append (l₁ l₂ : List NodeOp) :
    flatten (l₁ ++ l₂) = flatten l₁ ++ flatten l₂ := by
  induction l₁ with
  | nil => rfl
  | cons op rest ih => cases op <;> simp [flatten, ih]

/-- A push of an op that is neither `Skip` nor `Remove` flushes the pending
slot and appends the op. -/
theorem push_other (q : OpQueue) (op : NodeOp)
    (h1 : isSkip op = false) (h2 : isRemove op = false) :
    q.push op = ⟨LastOp.None, q.done ++ [op]⟩ := by
  obtain ⟨last, queue⟩ := q
  cases last <;> cases op <;> simp_all [OpQueue.push, OpQueue.done, isSkip, isRemove]

theorem push_skip (q : OpQueue) (c : Nat) :
    q.push (NodeOp.Skip c) = match q.last with
      | LastOp.None => ⟨LastOp.Skip c, q.queue⟩
      | LastOp.Skip lc => ⟨LastOp.Skip (c + lc), q.queue⟩
      | LastOp.Remove lc => ⟨LastOp.Skip c, q.queue ++ [NodeOp.Remove lc]⟩ := by
  obtain ⟨last, queue⟩ := q
  cases last <;> rfl

theorem push_remove (q : OpQueue) (c : Nat) :
    q.push (NodeOp.Remove c) = match q.last with
      | LastOp.None => ⟨LastOp.Remove c, q.queue⟩
      | LastOp.Remove lc => ⟨LastOp.Remove (c + lc), q.queue⟩
      | LastOp.Skip lc => ⟨LastOp.Remove c, q.queue ++ [NodeOp.Skip lc]⟩ := by
  obtain ⟨last, queue⟩ := q
  cases last <;> rfl

theorem push_done_flatten (q : OpQueue) (op : NodeOp) :
    flatten (q.push op).done = flatten q.done ++ flatten [op] := by
  obtain ⟨last, queue⟩ := q
  cases op with
  | Skip c =>
      cases last with
      | None => simp [OpQueue.push, OpQueue.done, flatten_append]
      | Skip lc =>
          simp only [OpQueue.push, OpQueue.done]
          rw [flatten_append, flatten_append]
          simp only [flatten, List.append_nil]
          rw [Nat.add_comm c lc, List.replicate_add]
          simp
      | Remove lc =>
          simp only [OpQueue.push, OpQueue.done]
          rw [flatten_append, flatten_append]
  | Remove c =>
      cases last with
      | None => simp [OpQueue.push, OpQueue.done, flatten_append]
      | Remove lc =>
          simp only [OpQueue.push, OpQueue.done]
          rw [flatten_append, flatten_append]
          simp only [flatten, List.append_nil]
          rw [Nat.add_comm c lc, List.replicate_add]
          simp
      | Skip lc =>
          simp only [OpQueue.push, OpQueue.done]
          rw [flatten_append, flatten_append]
  | Move pos a u i =>
      cases last <;> simp [OpQueue.push, OpQueue.done, flatten, flatten_append]
  | Update a u i =>
      cases last <;> simp [OpQueue.push, OpQueue.done, flatten, flatten_append]
  | Replace n =>
      cases last <;> simp [OpQueue.push, OpQueue.done, flatten, flatten_append]

theorem compat_other_right (x op : NodeOp)
    (h1 : isSkip op = false) (h2 : isRemove op = false) : opsCompatible x op := by
  constructor
  · intro hc
    rw [h1] at hc
    exact Bool.noConfusion hc.2
  · intro hc
    rw [h2] at hc
    exact Bool.noConfusion hc.2

theorem compat_skip_iff (x : NodeOp) (a : Nat) :
    opsCompatible x (NodeOp.Skip a) ↔ isSkip x = false := by
  cases x <;> simp [opsCompatible, isSkip, isRemove]

theorem compat_remove_iff (x : NodeOp) (a : Nat) :
    opsCompatible x (NodeOp.Remove a) ↔ isRemove x = false := by
  cases x <;> simp [opsCompatible, isSkip, isRemove]

theorem chain'_concat {l : List NodeOp} {a : NodeOp}
    (h : List.Chain' opsCompatible l)
    (hlast : ∀ x, l.getLast? = some x → opsCompatible x a) :
    List.Chain' opsCompatible (l ++ [a]) := by
  rw [List.chain'_append]
  refine ⟨h, List.chain'_singleton a, ?_⟩
  intro x hx y hy
  simp at hy
  subst hy
  exact hlast x hx

theorem chain'_concat_parts {l : List NodeOp} {a : NodeOp}
    (h : List.Chain' opsCompatible (l ++ [a])) :
    List.Chain' opsCompatible l ∧ ∀ x, l.getLast? = some x → opsCompatible x a := by
  rw [List.chain'_append] at h
  exact ⟨h.1, fun x hx => h.2.2 x hx a (by simp)⟩

theorem push_QInv (q : OpQueue) (op : NodeOp) (h : QInv q) : QInv (q.push op) := by
  obtain ⟨hchain, hend⟩ := h
  cases op with
  | Skip c =>
      rw [push_skip]
      obtain ⟨last, queue⟩ := q
      cases last with
      | None =>
          refine ⟨?_, fun hx => by cases hx⟩
          simp only [OpQueue.done] at hchain ⊢
          exact chain'_concat hchain (fun x hx =>
            (compat_skip_iff x c).2 ((hend rfl x hx).1))
      | Skip lc =>
          refine ⟨?_, fun hx => by cases hx⟩
          simp only [OpQueue.done] at hchain ⊢
          obtain ⟨hq, hl⟩ := chain'_concat_parts hchain
          exact chain'_concat hq (fun x hx =>
            (compat_skip_iff x _).2 ((compat_skip_iff x lc).1 (hl x hx)))
      | Remove lc =>
          refine ⟨?_, fun hx => by cases hx⟩
          simp only [OpQueue.done] at hchain ⊢
          exact chain'_concat hchain (fun x hx => by
            rw [List.getLast?_concat] at hx
            cases hx
            exact (compat_skip_iff _ _).2 rfl)
  | Remove c =>
      rw [push_remove]
      obtain ⟨last, queue⟩ := q
      cases last with
      | None =>
          refine ⟨?_, fun hx => by cases hx⟩
          simp only [OpQueue.done] at hchain ⊢
          exact chain'_concat hchain (fun x hx =>
            (compat_remove_iff x c).2 ((hend rfl x hx).2))
      | Remove lc =>
          refine ⟨?_, fun hx => by cases hx⟩
          simp only [OpQueue.done] at hchain ⊢
          obtain ⟨hq, hl⟩ := chain'_concat_parts hchain
          exact chain'_concat hq (fun x hx =>
            (compat_remove_iff x _).2 ((compat_remove_iff x lc).1 (hl x hx)))
      | Skip lc =>
          refine ⟨?_, fun hx => by cases hx⟩
          simp only [OpQueue.done] at hchain ⊢
          exact chain'_concat hchain (fun x hx => by
            rw [List.getLast?_concat] at hx
            cases hx
            exact (compat_remove_iff _ _).2 rfl)
  | Move pos a u i =>
      rw [push_other q (NodeOp.Move pos a u i) rfl rfl]
      refine ⟨?_, fun _ => ?_⟩
      · simp only [OpQueue.done]
        exact chain'_concat hchain (fun x _ => compat_other_right x _ rfl rfl)
      · intro x hx
        simp only at hx
        rw [List.getLast?_concat] at hx
        cases hx
        exact ⟨rfl, rfl⟩
  | Update a u i =>
      rw [push_other q (NodeOp.Update a u i) rfl rfl]
      refine ⟨?_, fun _ => ?_⟩
      · simp only [OpQueue.done]
        exact chain'_concat hchain (fun x _ => compat_other_right x _ rfl rfl)
      · intro x hx
        simp only at hx
        rw [List.getLast?_concat] at hx
        cases hx
        exact ⟨rfl, rfl⟩
  | Replace n =>
      rw [push_other q (NodeOp.Replace n) rfl rfl]
      refine ⟨?_, fun _ => ?_⟩
      · simp only [OpQueue.done]
        exact chain'_concat hchain (fun x _ => compat_other_right x _ rfl rfl)
      · intro x hx
        simp only at hx
        rw [List.getLast?_concat] at hx
        cases hx
        exact ⟨rfl, rfl⟩

theorem pushAll_QInv (ops : List NodeOp) (q : OpQueue) (h : QInv q) :
    QInv (q.pushAll ops) := by
  induction ops generalizing q with
  | nil => exact h
  | cons op ops ih => exact ih _ (push_QInv q op h)

theorem pushAll_done_flatten (ops : List NodeOp) (q : OpQueue) :
    flatten (q.pushAll ops).done = flatten q.done ++ flatten ops := by
  induction ops generalizing q with
  | nil => simp [OpQueue.pushAll, flatten]
  | cons op ops ih =>
      have h1 : q.pushAll (op :: ops) = (q.push op).pushAll ops := rfl
      have h2 : flatten (op :: ops) = flatten [op] ++ flatten ops := by
        have := flatten_append [op] ops
        simpa using this
      rw [h1, ih, push_done_flatten, h2, List.append_assoc]

/-- C8: the compression queue coalesces.  Pushing `Skip(a)` then `Skip(b)`
equals pushing `Skip(a+b)`; pushing `Remove(a)` then `Remove(b)` equals
pushing `Remove(a+b)`; a push that does not coalesce with the pending slot
first flushes it (`push q op = push (flush q) op`); and for every push
sequence the vector returned by `done()` has no two adjacent `Skip`s and no
two adjacent `Remove`s, and expands (`flatten`) to exactly the pushed
sequence, so push order and the consumed counts are preserved. -/
theorem C8_queue_coalescing :
    (∀ (q : OpQueue) (a b : Nat),
        (q.push (NodeOp.Skip a)).push (NodeOp.Skip b) = q.push (NodeOp.Skip (a + b))) ∧
    (∀ (q : OpQueue) (a b : Nat),
        (q.push (NodeOp.Remove a)).push (NodeOp.Remove b)
          = q.push (NodeOp.Remove (a + b))) ∧
    (∀ (q : OpQueue) (op : NodeOp), coalesces q.last op = false →
        q.push op = q.flush.push op) ∧
    (∀ ops : List NodeOp,
        List.Chain' opsCompatible (OpQueue.new.pushAll ops).done ∧
        flatten (OpQueue.new.pushAll ops).done = flatten ops) := by
  refine ⟨?_, ?_, ?_, ?_⟩
  · intro q a b
    obtain ⟨last, queue⟩ := q
    cases last <;> simp [OpQueue.push] <;> omega
  · intro q a b
    obtain ⟨last, queue⟩ := q
    cases last <;> simp [OpQueue.push] <;> omega
  · intro q op h
    obtain ⟨last, queue⟩ := q
    cases last <;> cases op <;>
      simp_all [coalesces, OpQueue.push, OpQueue.flush, OpQueue.done, LastOp.ops]
  · intro ops
    have hinv : QInv (OpQueue.new.pushAll ops) :=
      pushAll_QInv ops OpQueue.new ⟨List.chain'_nil, fun _ x hx => by cases hx⟩
    refine ⟨hinv.1, ?_⟩
    have := pushAll_done_flatten ops OpQueue.new
    simpa [OpQueue.new, OpQueue.done, flatten] using this

/-- Witness for C8: a concrete non-coalescing push (a `Remove` after a
pending `Skip`) flushes the pending slot. -/
theorem C8_queue_coalescing_witness :
    coalesces (OpQueue.new.push (NodeOp.Skip 2)).last (NodeOp.Remove 1) = false ∧
    (OpQueue.new.push (NodeOp.Skip 2)).push (NodeOp.Remove 1)
      = (OpQueue.new.push (NodeOp.Skip 2)).flush.push (NodeOp.Remove 1) :=
  ⟨rfl, C8_queue_coalescing.2.2.1 (OpQueue.new.push (NodeOp.Skip 2)) (NodeOp.Remove 1) rfl⟩

/-! ## C5 — attribute diff as a set -/

theorem mem_keys_of_lookupA_isSome {l : List (String × String)} {k : String}
    (h : (lookupA l k).isSome = true) : k ∈ l.map Prod.fst := by
  induction l with
  | nil => simp [lookupA] at h
  | cons kv rest ih =>
      by_cases hk : kv.1 = k
      · rw [List.map_cons, ← hk]
        exact List.mem_cons_self kv.1 _
      · have he : lookupA (kv :: rest) k = lookupA rest k := by
          simp [lookupA, hk]
        rw [he] at h
        rw [List.map_cons]
        exact List.mem_cons_of_mem _ (ih h)

theorem mem_keys_of_lookupA_eq_some {l : List (String × String)} {k v : String}
    (h : lookupA l k = some v) : k ∈ l.map Prod.fst :=
  mem_keys_of_lookupA_isSome (by rw [h]; rfl)

theorem attr_op_for_eq_remove (oa na : List (String × String)) (a k : String) :
    attr_op_for oa na a = some (AttrOp.Remove k) ↔
      a = k ∧ (lookupA oa a).isSome = true ∧ lookupA na a = none := by
  cases h1 : lookupA oa a with
  | none =>
      cases h2 : lookupA na a with
      | none => simp [attr_op_for, h1, h2]
      | some v => simp [attr_op_for, h1, h2]
  | some w =>
      cases h2 : lookupA na a with
      | none => simp [attr_op_for, h1, h2]
      | some nv =>
          by_cases hne : w = nv <;> simp [attr_op_for, h1, h2, hne]

theorem attr_op_for_eq_insert (oa na : List (String × String)) (a k v : String) :
    attr_op_for oa na a = some (AttrOp.Insert k v) ↔
      a = k ∧ lookupA oa a = none ∧ lookupA na a = some v := by
  cases h1 : lookupA oa a with
  | none =>
      cases h2 : lookupA na a with
      | none => simp [attr_op_for, h1, h2]
      | some nv => simp [attr_op_for, h1, h2]
  | some w =>
      cases h2 : lookupA na a with
      | none => simp [attr_op_for, h1, h2]
      | some nv =>
          by_cases hne : w = nv <;> simp [attr_op_for, h1, h2, hne]

theorem attr_op_for_eq_update (oa na : List (String × String)) (a k v : String) :
    attr_op_for oa na a = some (AttrOp.Update k v) ↔
      a = k ∧ ∃ v₀, lookupA oa a = some v₀ ∧ lookupA na a = some v ∧ v₀ ≠ v := by
  cases h1 : lookupA oa a with
  | none =>
      cases h2 : lookupA na a with
      | none => simp [attr_op_for, h1, h2]
      | some nv => simp [attr_op_for, h1, h2]
  | some w =>
      cases h2 : lookupA na a with
      | none => simp [attr_op_for, h1, h2]
      | some nv =>
          by_cases hne : w = nv
          · simp [attr_op_for, h1, h2, hne]
          · simp only [attr_op_for, h1, h2, hne, ne_eq, not_false_eq_true, if_true,
              Option.some.injEq, AttrOp.Update.injEq]
            constructor
            · rintro ⟨rfl, rfl⟩
              exact ⟨rfl, w, rfl, rfl, hne⟩
            · rintro ⟨rfl, v₀, hv₀, hvv, hnev⟩
              cases hv₀
              cases hvv
              exact ⟨rfl, rfl⟩

theorem attr_op_for_ne_removeclass (oa na : List (String × String)) (a s : String) :
    attr_op_for oa na a ≠ some (AttrOp.RemoveClass s) := by
  cases h1 : lookupA oa a with
  | none =>
      cases h2 : lookupA na a with
      | none => simp [attr_op_for, h1, h2]
      | some nv => simp [attr_op_for, h1, h2]
  | some w =>
      cases h2 : lookupA na a with
      | none => simp [attr_op_for, h1, h2]
      | some nv => by_cases hne : w = nv <;> simp [attr_op_for, h1, h2, hne]

theorem attr_op_for_ne_insertclass (oa na : List (String × String)) (a s : String) :
    attr_op_for oa na a ≠ some (AttrOp.InsertClass s) := by
  cases h1 : lookupA oa a with
  | none =>
      cases h2 : lookupA na a with
      | none => simp [attr_op_for, h1, h2]
      | some nv => simp [attr_op_for, h1, h2]
  | some w =>
      cases h2 : lookupA na a with
      | none => simp [attr_op_for, h1, h2]
      | some nv => by_cases hne : w = nv <;> simp [attr_op_for, h1, h2, hne]

/-- C5: the attribute diff, viewed as a set, contains exactly:
`RemoveClass c` for classes in old but not new; `InsertClass c` for classes
in new but not old; `Remove k` for keys present only in old; `Insert k v`
for keys present only in new with new value `v`; `Update k v` for keys
present in both whose values differ, carrying the new value; and nothing
else (in particular nothing for keys with equal values).  The result of
`diff_attributes` is absent exactly when this op vector is empty. -/
theorem C5_attribute_diff (oc nc : List String) (oa na : List (String × String)) :
    (∀ s, AttrOp.RemoveClass s ∈ attr_diff_ops oc nc oa na ↔ s ∈ oc ∧ s ∉ nc) ∧
    (∀ s, AttrOp.InsertClass s ∈ attr_diff_ops oc nc oa na ↔ s ∈ nc ∧ s ∉ oc) ∧
    (∀ k, AttrOp.Remove k ∈ attr_diff_ops oc nc oa na ↔
        (lookupA oa k).isSome = true ∧ lookupA na k = none) ∧
    (∀ k v, AttrOp.Insert k v ∈ attr_diff_ops oc nc oa na ↔
        lookupA oa k = none ∧ lookupA na k = some v) ∧
    (∀ k v, AttrOp.Update k v ∈ attr_diff_ops oc nc oa na ↔
        ∃ v₀, lookupA oa k = some v₀ ∧ lookupA na k = some v ∧ v₀ ≠ v) ∧
    (diff_attributes oc nc oa na = none ↔ attr_diff_ops oc nc oa na = []) := by
  refine ⟨?_, ?_, ?_, ?_, ?_, ?_⟩
  · intro s
    constructor
    · intro h
      simp only [attr_diff_ops, List.mem_append, List.mem_map, List.mem_filter,
        List.mem_filterMap] at h
      rcases h with (⟨c, hc, he⟩ | ⟨c, hc, he⟩) | ⟨a, ha, hf⟩
      · cases he
        simpa using hc
      · simp at he
      · exact absurd hf (attr_op_for_ne_removeclass oa na a s)
    · rintro ⟨h1, h2⟩
      simp only [attr_diff_ops, List.mem_append, List.mem_map, List.mem_filter]
      exact Or.inl (Or.inl ⟨s, by simpa using ⟨h1, h2⟩, rfl⟩)
  · intro s
    constructor
    · intro h
      simp only [attr_diff_ops, List.mem_append, List.mem_map, List.mem_filter,
        List.mem_filterMap] at h
      rcases h with (⟨c, hc, he⟩ | ⟨c, hc, he⟩) | ⟨a, ha, hf⟩
      · simp at he
      · cases he
        simpa using hc
      · exact absurd hf (attr_op_for_ne_insertclass oa na a s)
    · rintro ⟨h1, h2⟩
      simp only [attr_diff_ops, List.mem_append, List.mem_map, List.mem_filter]
      exact Or.inl (Or.inr ⟨s, by simpa using ⟨h1, h2⟩, rfl⟩)
  · intro k
    constructor
    · intro h
      simp only [attr_diff_ops, List.mem_append, List.mem_map, List.mem_filter,
        List.mem_filterMap] at h
      rcases h with (⟨c, hc, he⟩ | ⟨c, hc, he⟩) | ⟨a, ha, hf⟩
      · simp at he
      · simp at he
      · rcases (attr_op_for_eq_remove oa na a k).1 hf with ⟨rfl, h1, h2⟩
        exact ⟨h1, h2⟩
    · rintro ⟨h1, h2⟩
      simp only [attr_diff_ops, List.mem_append, List.mem_filterMap]
      refine Or.inr ⟨k, ?_, (attr_op_for_eq_remove oa na k k).2 ⟨rfl, h1, h2⟩⟩
      rw [List.mem_dedup, List.mem_append]
      exact Or.inl (mem_keys_of_lookupA_isSome h1)
  · intro k v
    constructor
    · intro h
      simp only [attr_diff_ops, List.mem_append, List.mem_map, List.mem_filter,
        List.mem_filterMap] at h
      rcases h with (⟨c, hc, he⟩ | ⟨c, hc, he⟩) | ⟨a, ha, hf⟩
      · simp at he
      · simp at he
      · rcases (attr_op_for_eq_insert oa na a k v).1 hf with ⟨rfl, h1, h2⟩
        exact ⟨h1, h2⟩
    · rintro ⟨h1, h2⟩
      simp only [attr_diff_ops, List.mem_append, List.mem_filterMap]
      refine Or.inr ⟨k, ?_, (attr_op_for_eq_insert oa na k k v).2 ⟨rfl, h1, h2⟩⟩
      rw [List.mem_dedup, List.mem_append]
      exact Or.inr (mem_keys_of_lookupA_eq_some h2)
  · intro k v
    constructor
    · intro h
      simp only [attr_diff_ops, List.mem_append, List.mem_map, List.mem_filter,
        List.mem_filterMap] at h
      rcases h with (⟨c, hc, he⟩ | ⟨c, hc, he⟩) | ⟨a, ha, hf⟩
      · simp at he
      · simp at he
      · rcases (attr_op_for_eq_update oa na a k v).1 hf with ⟨rfl, hex⟩
        exact hex
    · rintro ⟨v₀, h1, h2, hne⟩
      simp only [attr_diff_ops, List.mem_append, List.mem_filterMap]
      refine Or.inr ⟨k, ?_, (attr_op_for_eq_update oa na k k v).2 ⟨rfl, v₀, h1, h2, hne⟩⟩
      rw [List.mem_dedup, List.mem_append]
      exact Or.inl (mem_keys_of_lookupA_eq_some h1)
  · simp only [diff_attributes]
    cases h : attr_diff_ops oc nc oa na with
    | nil => simp
    | cons x rest => simp

/-! ## C2 — diffing a tree against itself -/

theorem textFreeList_mem {cs : List VNode} (h : textFreeList cs = true)
    {c : VNode} (hc : c ∈ cs) : textFree c = true := by
  induction cs with
  | nil => cases hc
  | cons d cs ih =>
      rw [textFreeList, Bool.and_eq_true] at h
      rcases List.mem_cons.1 hc with rfl | hmem
      · exact h.1
      · exact ih h.2 hmem

theorem nodeSize_pos (x : VNode) : 1 ≤ nodeSize x := by
  cases x <;> simp [nodeSize]

theorem nodeSize_lt_listSize_of_mem {cs : List VNode} {c : VNode} (h : c ∈ cs) :
    nodeSize c < listSize cs := by
  induction cs with
  | nil => cases h
  | cons d cs ih =>
      rcases List.mem_cons.1 h with rfl | hmem
      · simp [listSize]
        omega
      · have := ih hmem
        simp [listSize]
        omega

theorem commonPrefixLen_self (cs : List VNode) : commonPrefixLen cs cs = cs.length := by
  induction cs with
  | nil => rfl
  | cons c cs ih =>
      simp [commonPrefixLen, ih]
      omega

theorem diff_attributes_self (classes : List String) (attrs : List (String × String)) :
    diff_attributes classes classes attrs attrs = none := by
  have hops : attr_diff_ops classes classes attrs attrs = [] := by
    simp only [attr_diff_ops, List.append_eq_nil]
    refine ⟨⟨?_, ?_⟩, ?_⟩
    · simp [List.filter_eq_nil_iff]
    · simp [List.filter_eq_nil_iff]
    · rw [List.filterMap_eq_nil_iff]
      intro a ha
      cases h1 : lookupA attrs a with
      | none => simp [attr_op_for, h1]
      | some v => simp [attr_op_for, h1]
  simp [diff_attributes, hops]

theorem pushAll_skip_ones (k m : Nat) :
    OpQueue.pushAll ⟨LastOp.Skip m, []⟩ (List.replicate k (NodeOp.Skip 1))
      = ⟨LastOp.Skip (k + m), []⟩ := by
  induction k generalizing m with
  | zero => simp [OpQueue.pushAll]
  | succ k ih =>
      rw [List.replicate_succ]
      have h1 : OpQueue.pushAll ⟨LastOp.Skip m, []⟩ (NodeOp.Skip 1 :: List.replicate k (NodeOp.Skip 1))
          = OpQueue.pushAll ⟨LastOp.Skip (1 + m), []⟩ (List.replicate k (NodeOp.Skip 1)) := rfl
      rw [h1, ih]
      have : k + (1 + m) = k + 1 + m := by omega
      rw [this]

theorem pushAll_replicate_skip (n : Nat) :
    OpQueue.new.pushAll (List.replicate (n + 1) (NodeOp.Skip 1))
      = ⟨LastOp.Skip (n + 1), []⟩ := by
  rw [List.replicate_succ]
  have h1 : OpQueue.new.pushAll (NodeOp.Skip 1 :: List.replicate n (NodeOp.Skip 1))
      = OpQueue.pushAll ⟨LastOp.Skip 1, []⟩ (List.replicate n (NodeOp.Skip 1)) := rfl
  rw [h1, pushAll_skip_ones]

theorem mapM_range'_eq_replicate {α : Type} (g : Nat → Option α) (v : α) :
    ∀ (n s : Nat), (∀ i, s ≤ i → i < s + n → g i = some v) →
      (List.range' s n).mapM g = some (List.replicate n v) := by
  intro n
  induction n with
  | zero => intro s _; rfl
  | succ n ih =>
      intro s h
      rw [List.range'_succ]
      have hg : g s = some v := h s le_rfl (by omega)
      have hrest : (List.range' (s + 1) n).mapM g = some (List.replicate n v) :=
        ih (s + 1) (fun i h1 h2 => h i (by omega) (by omega))
      rw [List.mapM_cons, hg, hrest]
      rfl

theorem commonSuffixLenAux_zero (a b : List VNode) : commonSuffixLenAux 0 a b = 0 := by
  cases a <;> cases b <;> rfl

theorem diff_childrenF_self (f : Nat) (cs : List VNode)
    (hrec : ∀ c ∈ cs, diffF (f + 1) c c = some (NodeOp.Skip 1)) :
    diff_childrenF (f + 2) cs cs = some (none, none) := by
  cases cs with
  | nil => rfl
  | cons c cs' =>
    have hpre : commonPrefixLen (c :: cs') (c :: cs') = (c :: cs').length :=
      commonPrefixLen_self _
    have hmap : (List.range (c :: cs').length).mapM (fun i => do
        let o ← (c :: cs').get? i
        let n ← (c :: cs').get? i
        diffF (f + 1) o n) = some (List.replicate (c :: cs').length (NodeOp.Skip 1)) := by
      rw [List.range_eq_range']
      apply mapM_range'_eq_replicate
      intro i h0 hi
      have hlt : i < (c :: cs').length := by simpa using hi
      have hmem : (c :: cs')[i] ∈ c :: cs' := List.getElem_mem hlt
      have hget : (c :: cs').get? i = some ((c :: cs')[i]) := by
        simp [List.get?_eq_getElem?, List.getElem?_eq_getElem hlt]
      rw [hget]
      simp [hrec _ hmem]
    simp only [diff_childrenF]
    rw [hpre]
    simp only [Nat.min_self, Nat.sub_self, commonSuffixLenAux_zero, Nat.add_zero,
      Nat.sub_zero]
    rw [hmap]
    simp only [Option.bind_eq_bind, Option.some_bind, Nat.sub_self]
    simp only [middle_ops]
    have hlen : (c :: cs').length = cs'.length + 1 := rfl
    rw [hlen]
    simp only [List.range_zero, List.mapM_nil, Option.pure_def, Option.some_bind,
      List.append_nil]
    simp only [finalize_children]
    rw [pushAll_replicate_skip]
    rfl

theorem diffF_self (fuel : Nat) :
    ∀ x : VNode, textFree x = true → 4 * nodeSize x ≤ fuel →
      diffF fuel x x = some (NodeOp.Skip 1) := by
  induction fuel using Nat.strong_induction_on with
  | _ fuel ih =>
    intro x hfree hfuel
    cases x with
    | Text s => simp [textFree] at hfree
    | Element t k a cl cs =>
      have hsz : 1 ≤ nodeSize (VNode.Element t k a cl cs) := nodeSize_pos _
      obtain ⟨f, rfl⟩ : ∃ f, fuel = f + 1 := ⟨fuel - 1, by omega⟩
      have hchild : diff_childrenF f cs cs = some (none, none) := by
        cases cs with
        | nil => cases f <;> rfl
        | cons c cs' =>
          obtain ⟨g, rfl⟩ : ∃ g, f = g + 2 := by
            refine ⟨f - 2, ?_⟩
            have : 2 ≤ listSize (c :: cs') := by
              have := nodeSize_pos c
              simp [listSize]
              omega
            simp [nodeSize] at hfuel
            omega
          apply diff_childrenF_self
          intro d hd
          apply ih (g + 1) (by omega) d (textFreeList_mem hfree hd)
          have h1 : nodeSize d < listSize (c :: cs') := nodeSize_lt_listSize_of_mem hd
          simp [nodeSize] at hfuel
          omega
      simp only [diffF]
      rw [if_neg (fun h => h rfl), if_neg (fun h => h rfl)]
      rw [diff_attributes_self, hchild]

/-- C2 (amended): for every node `x` whose subtree contains no text node,
`diff x x = Skip(1)`. -/
theorem C2_diff_self_skip (x : VNode) (h : textFree x = true) :
    diff x x = some (NodeOp.Skip 1) :=
  diffF_self (4 * nodeSize x) x h le_rfl

/-- Witness for C2: the singleton element `div` diffed against itself. -/
theorem C2_diff_self_skip_witness :
    textFree (VNode.Element "div" none [] [] []) = true ∧
    diff (VNode.Element "div" none [] [] []) (VNode.Element "div" none [] [] [])
      = some (NodeOp.Skip 1) :=
  ⟨rfl, C2_diff_self_skip (VNode.Element "div" none [] [] []) rfl⟩

/-- Counterexample to C2 as stated: a `div` whose only child is a text node,
diffed against itself, yields `Update(absent, [Replace(&text)], absent)`
rather than `Skip(1)` (the per-child diff of the identical text is a
`Replace`, which survives into the children diff). -/
theorem C2_counterexample :
    diff (VNode.Element "div" none [] [] [VNode.Text "t"])
        (VNode.Element "div" none [] [] [VNode.Text "t"])
      = some (NodeOp.Update none (some [NodeOp.Replace (VNode.Text "t")]) none) ∧
    some (NodeOp.Update none (some [NodeOp.Replace (VNode.Text "t")]) none)
      ≠ some (NodeOp.Skip 1) := by
  refine ⟨rfl, fun h => ?_⟩
  injection h with h'
  exact NodeOp.noConfusion h'

/-! ## C4 — element dispatch order -/

/-- C4: for two `Element` inputs, `diff` dispatches in order: different tags
give `Replace(&new)`; equal tags with different keys give `Replace(&new)`;
with equal tag and key, if the attribute diff and both components of the
children diff are absent the result is `Skip(1)`, and otherwise it is
`Update(attrDiff, childDiff, inserts)`. -/
theorem C4_element_dispatch (fuel : Nat) (ot : String) (ok : Option String)
    (oa : List (String × String)) (oc : List String) (ochs : List VNode)
    (nt : String) (nk : Option String) (na : List (String × String))
    (ncl : List String) (nchs : List VNode) :
    (ot ≠ nt →
      diffF (fuel + 1) (VNode.Element ot ok oa oc ochs) (VNode.Element nt nk na ncl nchs)
        = some (NodeOp.Replace (VNode.Element nt nk na ncl nchs))) ∧
    (ot = nt → ok ≠ nk →
      diffF (fuel + 1) (VNode.Element ot ok oa oc ochs) (VNode.Element nt nk na ncl nchs)
        = some (NodeOp.Replace (VNode.Element nt nk na ncl nchs))) ∧
    (ot = nt → ok = nk →
      diff_attributes oc ncl oa na = none →
      diff_childrenF fuel ochs nchs = some (none, none) →
      diffF (fuel + 1) (VNode.Element ot ok oa oc ochs) (VNode.Element nt nk na ncl nchs)
        = some (NodeOp.Skip 1)) ∧
    (ot = nt → ok = nk →
      ∀ cd ci, diff_childrenF fuel ochs nchs = some (cd, ci) →
      ¬(diff_attributes oc ncl oa na = none ∧ cd = none ∧ ci = none) →
      diffF (fuel + 1) (VNode.Element ot ok oa oc ochs) (VNode.Element nt nk na ncl nchs)
        = some (NodeOp.Update (diff_attributes oc ncl oa na) cd ci)) := by
  refine ⟨?_, ?_, ?_, ?_⟩
  · intro hne
    simp only [diffF]
    rw [if_pos hne]
  · rintro rfl hne
    simp only [diffF]
    rw [if_neg (fun h => h rfl), if_pos hne]
  · rintro rfl rfl hattr hch
    simp only [diffF]
    rw [if_neg (fun h => h rfl), if_neg (fun h => h rfl), hattr, hch]
  · rintro rfl rfl cd ci hch hnot
    simp only [diffF]
    rw [if_neg (fun h => h rfl), if_neg (fun h => h rfl), hch]
    cases hA : diff_attributes oc ncl oa na with
    | none =>
        cases cd with
        | none =>
            cases ci with
            | none => exact absurd ⟨hA, rfl, rfl⟩ hnot
            | some ins => simp
        | some ops => cases ci <;> simp
    | some ops => cases cd <;> cases ci <;> simp

/-- Witness for C4: a tag mismatch produces `Replace`, and an equal-header
pair with no diffs produces `Skip(1)`, at concrete inputs. -/
theorem C4_element_dispatch_witness :
    diffF 1 (VNode.Element "div" none [] [] []) (VNode.Element "p" none [] [] [])
      = some (NodeOp.Replace (VNode.Element "p" none [] [] [])) ∧
    diffF 1 (VNode.Element "div" none [] [] []) (VNode.Element "div" none [] [] [])
      = some (NodeOp.Skip 1) :=
  ⟨(C4_element_dispatch 0 "div" none [] [] [] "p" none [] [] []).1
      (by intro h; exact absurd h (by decide)),
   (C4_element_dispatch 0 "div" none [] [] [] "div" none [] [] []).2.2.1 rfl rfl rfl rfl⟩

/-! ## C10 — inserts are strictly increasing and point into the new children -/

theorem enumFrom_mem_spec {α : Type} :
    ∀ (l : List α) (s : Nat) (p : Nat × α), p ∈ List.enumFrom s l →
      s ≤ p.1 ∧ l.get? (p.1 - s) = some p.2 := by
  intro l
  induction l with
  | nil => intro s p hp; cases hp
  | cons a l ih =>
      intro s p hp
      rw [List.enumFrom] at hp
      rcases List.mem_cons.1 hp with rfl | hmem
      · simp
      · rcases ih (s + 1) p hmem with ⟨h1, h2⟩
        refine ⟨by omega, ?_⟩
        have : p.1 - s = (p.1 - (s + 1)) + 1 := by omega
        rw [this]
        simpa using h2

theorem enumFrom_pairwise {α : Type} :
    ∀ (l : List α) (s : Nat),
      List.Pairwise (fun p q : Nat × α => p.1 < q.1) (List.enumFrom s l) := by
  intro l
  induction l with
  | nil => intro s; simp [List.enumFrom]
  | cons a l ih =>
      intro s
      rw [List.enumFrom]
      refine List.Pairwise.cons ?_ (ih (s + 1))
      intro q hq
      have := (enumFrom_mem_spec l (s + 1) q hq).1
      simpa using by omega

theorem enum_mem_spec {α : Type} (l : List α) (p : Nat × α) (hp : p ∈ l.enum) :
    l.get? p.1 = some p.2 := by
  have := enumFrom_mem_spec l 0 p hp
  simpa using this.2

theorem enum_pairwise {α : Type} (l : List α) :
    List.Pairwise (fun p q : Nat × α => p.1 < q.1) l.enum :=
  enumFrom_pairwise l 0

theorem mapM_range'_insert_spec (news : List VNode) :
    ∀ (n s : Nat) (ins : List (Nat × VNode)),
      (List.range' s n).mapM (fun i => do
          let nn ← news.get? i
          pure ((i, nn) : Nat × VNode)) = some ins →
      (∀ p ∈ ins, s ≤ p.1 ∧ news.get? p.1 = some p.2) ∧
        List.Pairwise (fun p q : Nat × VNode => p.1 < q.1) ins := by
  intro n
  induction n with
  | zero =>
      intro s ins h
      cases h
      exact ⟨fun p hp => absurd hp (List.not_mem_nil p), List.Pairwise.nil⟩
  | succ n ih =>
      intro s ins h
      rw [List.range'_succ, List.mapM_cons] at h
      cases hg : news.get? s with
      | none => rw [hg] at h; cases h
      | some nn =>
          rw [hg] at h
          cases ht : (List.range' (s + 1) n).mapM (fun i => do
              let nn ← news.get? i
              pure ((i, nn) : Nat × VNode)) with
          | none => rw [ht] at h; cases h
          | some tail =>
              rw [ht] at h
              have hins : ins = (s, nn) :: tail := by
                cases h
                rfl
              subst hins
              rcases ih (s + 1) tail ht with ⟨hmem, hpw⟩
              refine ⟨?_, ?_⟩
              · intro p hp
                rcases List.mem_cons.1 hp with rfl | hmem2
                · exact ⟨le_rfl, hg⟩
                · rcases hmem p hmem2 with ⟨h1, h2⟩
                  exact ⟨by omega, h2⟩
              · refine List.Pairwise.cons ?_ hpw
                intro q hq
                have := (hmem q hq).1
                simp
                omega

theorem insertsFold_spec (old_positions : List (Option Nat)) (offset : Nat)
    (nmid : List VNode) :
    ∀ (l : List (Nat × VNode)) (acc ins : List (Nat × VNode)),
      l.foldlM (fun (acc : List (Nat × VNode)) (ic : Nat × VNode) =>
          match old_positions.get? ic.1 with
          | none => none
          | some none => some (acc ++ [(offset + ic.1, ic.2)])
          | some (some _) => some acc) acc = some ins →
      (∀ p ∈ l, nmid.get? p.1 = some p.2) →
      List.Pairwise (fun p q : Nat × VNode => p.1 < q.1) l →
      (∀ p ∈ acc, ∃ i, p.1 = offset + i ∧ nmid.get? i = some p.2) →
      List.Pairwise (fun p q : Nat × VNode => p.1 < q.1) acc →
      (∀ pa ∈ acc, ∀ pl ∈ l, pa.1 < offset + pl.1) →
      (∀ p ∈ ins, ∃ i, p.1 = offset + i ∧ nmid.get? i = some p.2) ∧
        List.Pairwise (fun p q : Nat × VNode => p.1 < q.1) ins := by
  intro l
  induction l with
  | nil =>
      intro acc ins h _ _ hacc hpw _
      cases h
      exact ⟨hacc, hpw⟩
  | cons ic l ih =>
      intro acc ins h hl hlpw hacc hpw hbound
      rw [List.foldlM_cons] at h
      cases hop : old_positions.get? ic.1 with
      | none => rw [hop] at h; cases h
      | some o =>
          cases o with
          | none =>
              rw [hop] at h
              simp only [Option.some_bind] at h
              refine ih (acc ++ [(offset + ic.1, ic.2)]) ins h
                (fun p hp => hl p (List.mem_cons_of_mem _ hp))
                (List.Pairwise.sublist (List.sublist_cons_self _ _) hlpw) ?_ ?_ ?_
              · intro p hp
                rcases List.mem_append.1 hp with hp | hp
                · exact hacc p hp
                · rcases List.mem_singleton.1 hp with rfl
                  exact ⟨ic.1, rfl, hl ic (List.mem_cons_self _ _)⟩
              · rw [List.pairwise_append]
                refine ⟨hpw, List.pairwise_singleton _ _, ?_⟩
                intro pa hpa pb hpb
                rcases List.mem_singleton.1 hpb with rfl
                exact hbound pa hpa ic (List.mem_cons_self _ _)
              · intro pa hpa pl hpl
                rcases List.mem_append.1 hpa with hpa | hpa
                · exact hbound pa hpa pl (List.mem_cons_of_mem _ hpl)
                · rcases List.mem_singleton.1 hpa with rfl
                  have hic : ic.1 < pl.1 := by
                    have := List.pairwise_cons.1 hlpw
                    exact this.1 pl hpl
                  simp
                  omega
          | some j =>
              rw [hop] at h
              simp only [Option.some_bind] at h
              refine ih acc ins h
                (fun p hp => hl p (List.mem_cons_of_mem _ hp))
                (List.Pairwise.sublist (List.sublist_cons_self _ _) hlpw) hacc hpw ?_
              intro pa hpa pl hpl
              exact hbound pa hpa pl (List.mem_cons_of_mem _ hpl)

theorem diff_middlesF_inserts_spec (fuel offset : Nat) (omid nmid : List VNode)
    (planned : List NodeOp) (ins : List (Nat × VNode))
    (h : diff_middlesF (fuel + 1) offset omid nmid = some (planned, ins)) :
    (∀ p ∈ ins, ∃ i, p.1 = offset + i ∧ nmid.get? i = some p.2) ∧
      List.Pairwise (fun p q : Nat × VNode => p.1 < q.1) ins := by
  simp only [diff_middlesF, Option.bind_eq_bind, Option.pure_def] at h
  rcases Option.bind_eq_some.1 h with ⟨kidx, hk, h⟩
  rcases Option.bind_eq_some.1 h with ⟨st, hst, h⟩
  by_cases hc : omid.length - st.2.2.2.1 ≠ nmid.length
  · rw [if_pos hc] at h
    rcases Option.bind_eq_some.1 h with ⟨inserts0, hins, h⟩
    have hins_eq : ins = inserts0 := by
      by_cases hm : st.2.2.1 = true
      · rw [if_pos hm] at h
        rcases Option.bind_eq_some.1 h with ⟨lis, _, h⟩
        rcases Option.bind_eq_some.1 h with ⟨res, _, h⟩
        rcases Option.bind_eq_some.1 h with ⟨y1, hy1, h⟩
        cases h
        rfl
      · rw [if_neg hm] at h
        rcases Option.bind_eq_some.1 h with ⟨y1, hy1, h⟩
        cases h
        rfl
    subst hins_eq
    exact insertsFold_spec st.1 offset nmid nmid.enum [] ins hins
      (fun p hp => enum_mem_spec nmid p hp) (enum_pairwise nmid)
      (fun p hp => absurd hp (List.not_mem_nil p)) List.Pairwise.nil
      (fun pa hpa => absurd hpa (List.not_mem_nil pa))
  · rw [if_neg hc] at h
    rcases Option.bind_eq_some.1 h with ⟨inserts0, hins, h⟩
    have hins0 : inserts0 = [] := by
      cases hins
      rfl
    subst hins0
    have hins_eq : ins = [] := by
      by_cases hm : st.2.2.1 = true
      · rw [if_pos hm] at h
        rcases Option.bind_eq_some.1 h with ⟨lis, _, h⟩
        rcases Option.bind_eq_some.1 h with ⟨res, _, h⟩
        rcases Option.bind_eq_some.1 h with ⟨y1, hy1, h⟩
        cases h
        rfl
      · rw [if_neg hm] at h
        rcases Option.bind_eq_some.1 h with ⟨y1, hy1, h⟩
        cases h
        rfl
    subst hins_eq
    exact ⟨fun p hp => absurd hp (List.not_mem_nil p), List.Pairwise.nil⟩

theorem commonPrefixLen_le (olds news : List VNode) :
    commonPrefixLen olds news ≤ olds.length ∧ commonPrefixLen olds news ≤ news.length := by
  induction olds generalizing news with
  | nil => cases news <;> simp [commonPrefixLen]
  | cons o os ih =>
      cases news with
      | nil => simp [commonPrefixLen]
      | cons n ns =>
          by_cases h : o.key = n.key <;> simp [commonPrefixLen, h]
          · rcases ih ns with ⟨h1, h2⟩
            constructor <;> omega

theorem get?_take_drop {l : List VNode} {s m i : Nat} {v : VNode}
    (h : ((l.drop s).take m).get? i = some v) : l.get? (s + i) = some v := by
  rcases List.get?_eq_some.1 h with ⟨hlt, -⟩
  have hm : i < m := by
    have := List.length_take m (l.drop s)
    omega
  rw [List.get?_take hm, List.get?_drop] at h
  exact h

theorem finalize_children_snd (ops0 : List NodeOp) (ins0 : List (Nat × VNode))
    (cd : Option (List NodeOp)) (ins : List (Nat × VNode))
    (h : finalize_children ops0 ins0 = (cd, some ins)) : ins = ins0 := by
  simp only [finalize_children] at h
  cases hL : ((OpQueue.new.pushAll ops0).remove_single_skip).done.length with
  | zero =>
      rw [hL] at h
      cases hI : ins0.length with
      | zero =>
          rw [hI] at h
          simp at h
      | succ k =>
          rw [hI] at h
          simp at h
          exact h.2.symm
  | succ m =>
      rw [hL] at h
      cases hI : ins0.length with
      | zero =>
          rw [hI] at h
          simp at h
      | succ k =>
          rw [hI] at h
          simp at h
          exact h.2.symm

theorem middle_ops_inserts_spec (fuel pl : Nat) (olds news : List VNode)
    (oml nml : Nat) (mid : List NodeOp × List (Nat × VNode))
    (h : middle_ops fuel pl olds news oml nml = some mid) :
    List.Pairwise (fun p q : Nat × VNode => p.1 < q.1) mid.2 ∧
      ∀ p ∈ mid.2, news.get? p.1 = some p.2 := by
  cases fuel with
  | zero => cases h
  | succ f =>
      cases oml with
      | zero =>
          cases nml with
          | zero =>
              cases h
              exact ⟨List.Pairwise.nil, fun p hp => absurd hp (List.not_mem_nil p)⟩
          | succ k =>
              simp only [middle_ops, Option.bind_eq_bind, Option.pure_def] at h
              rcases Option.bind_eq_some.1 h with ⟨ins1, hins1, h⟩
              have hmid : mid = ([], ins1) := by
                cases h
                rfl
              subst hmid
              rcases mapM_range'_insert_spec news (k + 1) pl ins1 hins1 with ⟨hmem, hpw⟩
              exact ⟨hpw, fun p hp => (hmem p hp).2⟩
      | succ m =>
          cases nml with
          | zero =>
              cases h
              exact ⟨List.Pairwise.nil, fun p hp => absurd hp (List.not_mem_nil p)⟩
          | succ k =>
              simp only [middle_ops] at h
              cases f with
              | zero => cases h
              | succ g =>
                  rcases diff_middlesF_inserts_spec g pl
                    ((olds.drop pl).take (m + 1)) ((news.drop pl).take (k + 1))
                    mid.1 mid.2 (by rw [← h]) with ⟨hmem, hpw⟩
                  refine ⟨hpw, fun p hp => ?_⟩
                  rcases hmem p hp with ⟨i, hpi, hget⟩
                  rw [hpi]
                  exact get?_take_drop hget

/-- C10: every `Inserts` vector produced by `diff_children` (directly, from
the insert-only middle, or through the keyed reconciler) has strictly
increasing new-indices, and each pair `(i, n)` is exactly the node at
position `i` of the new children list. -/
theorem C10_inserts_strict_mono (fuel : Nat) (olds news : List VNode)
    (cd : Option (List NodeOp)) (ins : List (Nat × VNode))
    (h : diff_childrenF fuel olds news = some (cd, some ins)) :
    List.Pairwise (fun p q : Nat × VNode => p.1 < q.1) ins ∧
      ∀ p ∈ ins, news.get? p.1 = some p.2 := by
  cases olds with
  | nil =>
      cases news with
      | nil => cases fuel <;> simp [diff_childrenF] at h
      | cons n ns =>
          cases fuel <;>
            (simp only [diff_childrenF, Option.some.injEq, Prod.mk.injEq] at h;
             rcases h with ⟨-, h2⟩; rw [← h2]) <;>
            exact ⟨enum_pairwise _, fun p hp => enum_mem_spec _ p hp⟩
  | cons o os =>
      cases news with
      | nil => cases fuel <;> simp [diff_childrenF] at h
      | cons n ns =>
          cases fuel with
          | zero => cases h
          | succ f =>
              simp only [diff_childrenF, Option.bind_eq_bind, Option.pure_def] at h
              rcases Option.bind_eq_some.1 h with ⟨pre, hpre, h⟩
              rcases Option.bind_eq_some.1 h with ⟨mid, hmid, h⟩
              rcases Option.bind_eq_some.1 h with ⟨suf, hsuf, h⟩
              have hfin : finalize_children (pre ++ mid.1 ++ suf) mid.2 = (cd, some ins) :=
                Option.some.inj h
              have hins : ins = mid.2 := finalize_children_snd _ _ _ _ hfin
              subst hins
              exact middle_ops_inserts_spec f _ _ _ _ _ mid hmid

/-- Witness for C10: the concrete keyed-insert example (S-series): old
`[c1,c3]`, new `[c1,c2,c3]` inserts exactly `(1, c2)`. -/
theorem C10_inserts_strict_mono_witness :
    diff_childrenF 8
        [VNode.Element "p" (some "c1") [] [] [], VNode.Element "p" (some "c3") [] [] []]
        [VNode.Element "p" (some "c1") [] [] [], VNode.Element "p" (some "c2") [] [] [],
         VNode.Element "p" (some "c3") [] [] []]
      = some (none, some [(1, VNode.Element "p" (some "c2") [] [] [])]) ∧
    (List.Pairwise (fun p q : Nat × VNode => p.1 < q.1)
        [(1, VNode.Element "p" (some "c2") [] [] [])] ∧
      ∀ p ∈ [((1 : Nat), VNode.Element "p" (some "c2") [] [] [])],
        ([VNode.Element "p" (some "c1") [] [] [], VNode.Element "p" (some "c2") [] [] [],
          VNode.Element "p" (some "c3") [] [] []] : List VNode).get? p.1 = some p.2) :=
  ⟨rfl, C10_inserts_strict_mono 8
    [VNode.Element "p" (some "c1") [] [] [], VNode.Element "p" (some "c3") [] [] []]
    [VNode.Element "p" (some "c1") [] [] [], VNode.Element "p" (some "c2") [] [] [],
     VNode.Element "p" (some "c3") [] [] []]
    none [(1, VNode.Element "p" (some "c2") [] [] [])] rfl⟩

/-! ## C3 — a ChildDiff consumes exactly the old children -/

theorem consumedList_nil : consumedList [] = 0 := rfl

theorem consumedList_append (l₁ l₂ : List NodeOp) :
    consumedList (l₁ ++ l₂) = consumedList l₁ + consumedList l₂ := by
  simp [consumedList]

theorem consumedList_cons (op : NodeOp) (rest : List NodeOp) :
    consumedList (op :: rest) = consumed op + consumedList rest := by
  simp [consumedList]

theorem consumedList_replicate (n : Nat) (op : NodeOp) :
    consumedList (List.replicate n op) = n * consumed op := by
  induction n with
  | zero => simp [consumedList]
  | succ n ih =>
      rw [List.replicate_succ, consumedList_cons, ih, Nat.succ_mul]
      omega

theorem consumedList_flatten (l : List NodeOp) :
    consumedList (flatten l) = consumedList l := by
  induction l with
  | nil => rfl
  | cons op rest ih =>
      cases op with
      | Skip n =>
          simp only [flatten]
          rw [consumedList_append, consumedList_replicate, ih, consumedList_cons]
          simp [consumed]
      | Remove n =>
          simp only [flatten]
          rw [consumedList_append, consumedList_replicate, ih, consumedList_cons]
          simp [consumed]
      | Move pos a u i =>
          simp only [flatten]
          rw [consumedList_cons, consumedList_cons, ih]
      | Update a u i =>
          simp only [flatten]
          rw [consumedList_cons, consumedList_cons, ih]
      | Replace x =>
          simp only [flatten]
          rw [consumedList_cons, consumedList_cons, ih]

theorem consumedList_of_all_one {l : List NodeOp} (h : ∀ r ∈ l, consumed r = 1) :
    consumedList l = l.length := by
  induction l with
  | nil => rfl
  | cons op rest ih =>
      have h1 : consumed op = 1 := h op (List.mem_cons_self _ _)
      have h2 : consumedList rest = rest.length :=
        ih (fun r hr => h r (List.mem_cons_of_mem _ hr))
      simp [consumedList] at h2 ⊢
      omega

theorem diffF_consumed (fuel : Nat) (o n : VNode) (r : NodeOp)
    (h : diffF fuel o n = some r) : consumed r = 1 := by
  cases fuel with
  | zero => cases h
  | succ f =>
      cases o with
      | Text s =>
          cases n <;> (cases h; rfl)
      | Element t k a cl cs =>
          cases n with
          | Text s => cases h; rfl
          | Element t2 k2 a2 cl2 cs2 =>
              simp only [diffF] at h
              split at h
              · cases h; rfl
              · split at h
                · cases h; rfl
                · split at h
                  · cases h
                  · split at h
                    · cases h; rfl
                    · cases h; rfl

theorem queue_done_consumed (ops : List NodeOp) :
    consumedList (OpQueue.new.pushAll ops).done = consumedList ops := by
  have h := pushAll_done_flatten ops OpQueue.new
  have h1 := consumedList_flatten (OpQueue.new.pushAll ops).done
  have h2 := consumedList_flatten ops
  rw [h] at h1
  have h3 : flatten OpQueue.new.done = [] := rfl
  rw [h3] at h1
  simp at h1
  omega

theorem remove_single_skip_cases (q : OpQueue) :
    (q.remove_single_skip).done = [] ∨ q.remove_single_skip = q := by
  obtain ⟨last, queue⟩ := q
  cases queue with
  | nil =>
      cases last with
      | None => exact Or.inr rfl
      | Skip c => exact Or.inl rfl
      | Remove c => exact Or.inr rfl
  | cons x xs =>
      cases last <;> exact Or.inr rfl

theorem mapM_some_length {α β : Type} (g : α → Option β) :
    ∀ (l : List α) (res : List β), l.mapM g = some res → res.length = l.length := by
  intro l
  induction l with
  | nil => intro res h; cases h; rfl
  | cons a l ih =>
      intro res h
      rw [List.mapM_cons] at h
      cases hg : g a with
      | none => rw [hg] at h; cases h
      | some b =>
          rw [hg] at h
          cases ht : l.mapM g with
          | none => rw [ht] at h; cases h
          | some tail =>
              rw [ht] at h
              have : res = b :: tail := by cases h; rfl
              subst this
              simp [ih tail ht]

theorem mapM_some_mem {α β : Type} (g : α → Option β) :
    ∀ (l : List α) (res : List β), l.mapM g = some res →
      ∀ r ∈ res, ∃ a ∈ l, g a = some r := by
  intro l
  induction l with
  | nil =>
      intro res h r hr
      cases h
      cases hr
  | cons a l ih =>
      intro res h r hr
      rw [List.mapM_cons] at h
      cases hg : g a with
      | none => rw [hg] at h; cases h
      | some b =>
          rw [hg] at h
          cases ht : l.mapM g with
          | none => rw [ht] at h; cases h
          | some tail =>
              rw [ht] at h
              have : res = b :: tail := by cases h; rfl
              subst this
              rcases List.mem_cons.1 hr with rfl | hr
              · exact ⟨a, List.mem_cons_self _ _, hg⟩
              · rcases ih tail ht r hr with ⟨a2, ha2, hg2⟩
                exact ⟨a2, List.mem_cons_of_mem _ ha2, hg2⟩

theorem setO_eq_some {α : Type} {l : List α} {i : Nat} {a : α} {l' : List α}
    (h : setO l i a = some l') : l' = l.set i a := by
  by_cases hi : i < l.length
  · rw [setO, if_pos hi] at h
    cases h
    rfl
  · rw [setO, if_neg hi] at h
    cases h

theorem foldlM_proj_invariant {σ α : Type} (f : σ → α → Option σ) (proj : σ → List NodeOp)
    (hf : ∀ s a s', f s a = some s' →
      (proj s').length = (proj s).length ∧
        ((∀ op ∈ proj s, consumed op = 1) → ∀ op ∈ proj s', consumed op = 1)) :
    ∀ (l : List α) (s s' : σ), l.foldlM f s = some s' →
      (proj s').length = (proj s).length ∧
        ((∀ op ∈ proj s, consumed op = 1) → ∀ op ∈ proj s', consumed op = 1) := by
  intro l
  induction l with
  | nil =>
      intro s s' h
      cases h
      exact ⟨rfl, fun h op hop => h op hop⟩
  | cons a l ih =>
      intro s s' h
      rw [List.foldlM_cons] at h
      cases hfa : f s a with
      | none => rw [hfa] at h; cases h
      | some s1 =>
          rw [hfa] at h
          simp only [Option.bind_eq_bind, Option.some_bind] at h
          rcases hf s a s1 hfa with ⟨hl1, hm1⟩
          rcases ih s1 s' h with ⟨hl2, hm2⟩
          exact ⟨hl2.trans hl1, fun hall => hm2 (hm1 hall)⟩

theorem consumed_moveOf (p : Nat) (d : NodeOp) : consumed (moveOf p d) = 1 := by
  cases d <;> rfl

theorem diff_middlesF_planned_spec (fuel offset : Nat) (omid nmid : List VNode)
    (planned : List NodeOp) (ins : List (Nat × VNode))
    (h : diff_middlesF (fuel + 1) offset omid nmid = some (planned, ins)) :
    planned.length = omid.length ∧ ∀ op ∈ planned, consumed op = 1 := by
  simp only [diff_middlesF, Option.bind_eq_bind, Option.pure_def] at h
  rcases Option.bind_eq_some.1 h with ⟨kidx, hk, h⟩
  rcases Option.bind_eq_some.1 h with ⟨st, hst, h⟩
  have hscan := foldlM_proj_invariant _
    (fun s : List (Option Nat) × Nat × Bool × Nat × List NodeOp => s.2.2.2.2) ?hscanstep
    omid.enum _ st hst
  case hscanstep =>
    intro s a s' hf
    split at hf
    · cases hf
    · split at hf
      · try simp only [Option.bind_eq_bind] at hf
        rcases Option.bind_eq_some.1 hf with ⟨op', hop, hf⟩
        cases hf
        exact ⟨rfl, fun hall op hop2 => hall op hop2⟩
      · try simp only [Option.bind_eq_bind] at hf
        rcases Option.bind_eq_some.1 hf with ⟨planned', hset, hf⟩
        cases hf
        have hpl := setO_eq_some hset
        subst hpl
        refine ⟨by simp, fun hall op hop2 => ?_⟩
        rcases List.mem_or_eq_of_mem_set hop2 with hop2 | rfl
        · exact hall op hop2
        · rfl
  have hmvstep : ∀ (lis : List Nat) (s : List NodeOp × Nat) (a : Nat × VNode)
      (s' : List NodeOp × Nat),
      (match a.2.key with
        | none => none
        | some k =>
          match lookupLast kidx k with
          | some new_position => do
              let new_child ← nmid.get? new_position
              let d ← diffF fuel a.2 new_child
              if s.2 < lis.length ∧ lis.get? s.2 = some a.1 then do
                let planned' ← setO s.1 a.1 d
                some (planned', s.2 + 1)
              else do
                let planned' ← setO s.1 a.1 (moveOf (offset + new_position) d)
                some (planned', s.2)
          | none => some (s.1, s.2)) = some s' →
      s'.1.length = s.1.length ∧
        ((∀ op ∈ s.1, consumed op = 1) → ∀ op ∈ s'.1, consumed op = 1) := by
    intro lis s a s' hf
    split at hf
    · cases hf
    · split at hf
      · try simp only [Option.bind_eq_bind] at hf
        rcases Option.bind_eq_some.1 hf with ⟨new_child, hnc, hf⟩
        rcases Option.bind_eq_some.1 hf with ⟨d, hd, hf⟩
        have hd1 : consumed d = 1 := diffF_consumed _ a.2 new_child d hd
        split at hf
        · rcases Option.bind_eq_some.1 hf with ⟨planned', hset, hf⟩
          cases hf
          have hpl := setO_eq_some hset
          subst hpl
          refine ⟨by simp, fun hall op hop2 => ?_⟩
          rcases List.mem_or_eq_of_mem_set hop2 with hop2 | rfl
          · exact hall op hop2
          · exact hd1
        · rcases Option.bind_eq_some.1 hf with ⟨planned', hset, hf⟩
          cases hf
          have hpl := setO_eq_some hset
          subst hpl
          refine ⟨by simp, fun hall op hop2 => ?_⟩
          rcases List.mem_or_eq_of_mem_set hop2 with hop2 | rfl
          · exact hall op hop2
          · exact consumed_moveOf _ _
      · cases hf
        exact ⟨rfl, fun hall op hop2 => hall op hop2⟩
  have hinit_len : st.2.2.2.2.length = omid.length := by
    rcases hscan with ⟨hl, -⟩
    simpa using hl
  have hinit_one : ∀ op ∈ st.2.2.2.2, consumed op = 1 := by
    rcases hscan with ⟨-, hm⟩
    refine hm ?_
    intro op hop
    rcases List.eq_of_mem_replicate hop with rfl
    rfl
  by_cases hc : omid.length - st.2.2.2.1 ≠ nmid.length
  all_goals (
    first
    | rw [if_pos hc] at h
    | rw [if_neg hc] at h)
  all_goals (
    rcases Option.bind_eq_some.1 h with ⟨inserts0, hins, h⟩;
    by_cases hm : st.2.2.1 = true)
  all_goals (
    first
    | rw [if_pos hm] at h
    | rw [if_neg hm] at h)
  · rcases Option.bind_eq_some.1 h with ⟨lis, hlis, h⟩
    rcases Option.bind_eq_some.1 h with ⟨res, hres, h⟩
    rcases Option.bind_eq_some.1 h with ⟨y1, hy1, h⟩
    have hy : y1 = res.1 := by cases hy1; rfl
    have hpi : planned = y1 := by cases h; rfl
    subst hpi
    subst hy
    have hmoved := foldlM_proj_invariant _ (fun s : List NodeOp × Nat => s.1)
      (hmvstep lis) omid.enum _ res hres
    rcases hmoved with ⟨hl2, hm2⟩
    exact ⟨by simpa [hinit_len] using hl2, hm2 hinit_one⟩
  · rcases Option.bind_eq_some.1 h with ⟨y1, hy1, h⟩
    have hy : y1 = st.2.2.2.2 := by cases hy1; rfl
    have hpi : planned = y1 := by cases h; rfl
    subst hpi
    subst hy
    exact ⟨hinit_len, hinit_one⟩
  · rcases Option.bind_eq_some.1 h with ⟨lis, hlis, h⟩
    rcases Option.bind_eq_some.1 h with ⟨res, hres, h⟩
    rcases Option.bind_eq_some.1 h with ⟨y1, hy1, h⟩
    have hy : y1 = res.1 := by cases hy1; rfl
    have hpi : planned = y1 := by cases h; rfl
    subst hpi
    subst hy
    have hmoved := foldlM_proj_invariant _ (fun s : List NodeOp × Nat => s.1)
      (hmvstep lis) omid.enum _ res hres
    rcases hmoved with ⟨hl2, hm2⟩
    exact ⟨by simpa [hinit_len] using hl2, hm2 hinit_one⟩
  · rcases Option.bind_eq_some.1 h with ⟨y1, hy1, h⟩
    have hy : y1 = st.2.2.2.2 := by cases hy1; rfl
    have hpi : planned = y1 := by cases h; rfl
    subst hpi
    subst hy
    exact ⟨hinit_len, hinit_one⟩

theorem commonSuffixLenAux_le (cap : Nat) : ∀ (a b : List VNode),
    commonSuffixLenAux cap a b ≤ cap := by
  induction cap with
  | zero => intro a b; rw [commonSuffixLenAux_zero]
  | succ cap ih =>
      intro a b
      cases a with
      | nil => simp [commonSuffixLenAux]
      | cons o os =>
          cases b with
          | nil => simp [commonSuffixLenAux]
          | cons n ns =>
              by_cases h : o.key = n.key <;> simp [commonSuffixLenAux, h]
              have := ih os ns
              omega

theorem mapM_consumed {α : Type} (g : α → Option NodeOp) (l : List α) (res : List NodeOp)
    (h : l.mapM g = some res) (h1 : ∀ a r, g a = some r → consumed r = 1) :
    consumedList res = l.length := by
  rw [consumedList_of_all_one, mapM_some_length g l res h]
  intro r hr
  rcases mapM_some_mem g l res h r hr with ⟨a, -, hg⟩
  exact h1 a r hg

theorem middle_ops_fst_consumed (fuel pl : Nat) (olds news : List VNode)
    (oml nml : Nat) (mid : List NodeOp × List (Nat × VNode))
    (h : middle_ops fuel pl olds news oml nml = some mid)
    (hb : pl + oml ≤ olds.length) :
    consumedList mid.1 = oml := by
  cases fuel with
  | zero => cases h
  | succ f =>
      cases oml with
      | zero =>
          cases nml with
          | zero =>
              cases h
              rfl
          | succ k =>
              simp only [middle_ops, Option.bind_eq_bind, Option.pure_def] at h
              rcases Option.bind_eq_some.1 h with ⟨ins1, hins1, h⟩
              have hmid : mid = ([], ins1) := by cases h; rfl
              subst hmid
              rfl
      | succ m =>
          cases nml with
          | zero =>
              have hmid : mid = ([NodeOp.Remove (m + 1)], []) := by cases h; rfl
              subst hmid
              simp [consumedList, consumed]
          | succ k =>
              simp only [middle_ops] at h
              cases f with
              | zero => cases h
              | succ g =>
                  rcases diff_middlesF_planned_spec g pl
                    ((olds.drop pl).take (m + 1)) ((news.drop pl).take (k + 1))
                    mid.1 mid.2 (by rw [← h]) with ⟨hlen, hone⟩
                  rw [consumedList_of_all_one hone, hlen]
                  rw [List.length_take, List.length_drop]
                  omega

theorem finalize_children_fst (ops0 : List NodeOp) (ins0 : List (Nat × VNode))
    (ops : List NodeOp) (ci : Option (List (Nat × VNode)))
    (h : finalize_children ops0 ins0 = (some ops, ci)) :
    consumedList ops = consumedList ops0 := by
  rcases remove_single_skip_cases (OpQueue.new.pushAll ops0) with hd | he
  · exfalso
    simp only [finalize_children, hd] at h
    cases hI : ins0.length with
    | zero =>
        rw [hI] at h
        simp at h
    | succ k =>
        rw [hI] at h
        simp at h
  · simp only [finalize_children, he] at h
    cases hL : (OpQueue.new.pushAll ops0).done.length with
    | zero =>
        exfalso
        rw [hL] at h
        cases hI : ins0.length with
        | zero => rw [hI] at h; simp at h
        | succ k => rw [hI] at h; simp at h
    | succ m =>
        rw [hL] at h
        have hops : ops = (OpQueue.new.pushAll ops0).done := by
          cases hI : ins0.length with
          | zero =>
              rw [hI] at h
              simp at h
              exact h.1.symm
          | succ k =>
              rw [hI] at h
              simp at h
              exact h.1.symm
        rw [hops, queue_done_consumed]

/-- C3: whenever `diff_children` yields a present `ChildDiff`, the total of
old-list positions consumed by its operations — `n` for `Skip(n)` and
`Remove(n)`, `1` for `Update`, `Move` and `Replace` — is exactly the length
of the old children list. -/
theorem C3_childdiff_consumes_old (fuel : Nat) (olds news : List VNode)
    (ops : List NodeOp) (ci : Option (List (Nat × VNode)))
    (h : diff_childrenF fuel olds news = some (some ops, ci)) :
    consumedList ops = olds.length := by
  cases olds with
  | nil =>
      cases news with
      | nil => cases fuel <;> simp [diff_childrenF] at h
      | cons n ns => cases fuel <;> simp [diff_childrenF] at h
  | cons o os =>
      cases news with
      | nil =>
          cases fuel <;>
            (simp only [diff_childrenF, Option.some.injEq, Prod.mk.injEq] at h;
             rcases h with ⟨h1, -⟩; rw [← h1]) <;>
            simp [consumedList, consumed]
      | cons n ns =>
          cases fuel with
          | zero => cases h
          | succ f =>
              simp only [diff_childrenF, Option.bind_eq_bind, Option.pure_def] at h
              rcases Option.bind_eq_some.1 h with ⟨pre, hpre, h⟩
              rcases Option.bind_eq_some.1 h with ⟨mid, hmid, h⟩
              rcases Option.bind_eq_some.1 h with ⟨suf, hsuf, h⟩
              have hfin : finalize_children (pre ++ mid.1 ++ suf) mid.2
                  = (some ops, ci) := Option.some.inj h
              have hops := finalize_children_fst _ _ _ _ hfin
              rcases commonPrefixLen_le (o :: os) (n :: ns) with ⟨hpl1, hpl2⟩
              have hsl := commonSuffixLenAux_le
                (min (o :: os).length (n :: ns).length - commonPrefixLen (o :: os) (n :: ns))
                (o :: os).reverse (n :: ns).reverse
              have hcpre : consumedList pre = commonPrefixLen (o :: os) (n :: ns) := by
                refine (mapM_consumed _ _ _ hpre ?_).trans (List.length_range _)
                intro a r hg
                rcases Option.bind_eq_some.1 hg with ⟨o1, ho1, hg⟩
                rcases Option.bind_eq_some.1 hg with ⟨n1, hn1, hg⟩
                exact diffF_consumed f o1 n1 r hg
              have hcsuf : consumedList suf
                  = commonSuffixLenAux
                      (min (o :: os).length (n :: ns).length
                        - commonPrefixLen (o :: os) (n :: ns))
                      (o :: os).reverse (n :: ns).reverse := by
                refine (mapM_consumed _ _ _ hsuf ?_).trans (List.length_range _)
                intro a r hg
                rcases Option.bind_eq_some.1 hg with ⟨o1, ho1, hg⟩
                rcases Option.bind_eq_some.1 hg with ⟨n1, hn1, hg⟩
                exact diffF_consumed f o1 n1 r hg
              have hcmid : consumedList mid.1
                  = (o :: os).length
                    - (commonPrefixLen (o :: os) (n :: ns)
                      + commonSuffixLenAux
                          (min (o :: os).length (n :: ns).length
                            - commonPrefixLen (o :: os) (n :: ns))
                          (o :: os).reverse (n :: ns).reverse) := by
                refine middle_ops_fst_consumed f _ _ _ _ _ mid hmid ?_
                omega
              rw [consumedList_append, consumedList_append] at hops
              rw [hops, hcpre, hcmid, hcsuf]
              omega

/-- Witness for C3: scenario S4 (keyed removals) consumes all six old
children: `[Skip 1, Remove 2, Skip 2, Remove 1]` sums to 6. -/
theorem C3_childdiff_consumes_old_witness :
    diff_childrenF 12
        [VNode.Element "p" (some "c1") [] [] [], VNode.Element "p" (some "c2") [] [] [],
         VNode.Element "p" (some "c3") [] [] [], VNode.Element "p" (some "c4") [] [] [],
         VNode.Element "p" (some "c5") [] [] [], VNode.Element "p" (some "c6") [] [] []]
        [VNode.Element "p" (some "c1") [] [] [], VNode.Element "p" (some "c4") [] [] [],
         VNode.Element "p" (some "c5") [] [] []]
      = some (some [NodeOp.Skip 1, NodeOp.Remove 2, NodeOp.Skip 2, NodeOp.Remove 1], none) ∧
    consumedList [NodeOp.Skip 1, NodeOp.Remove 2, NodeOp.Skip 2, NodeOp.Remove 1] = 6 :=
  ⟨rfl, C3_childdiff_consumes_old 12
    [VNode.Element "p" (some "c1") [] [] [], VNode.Element "p" (some "c2") [] [] [],
     VNode.Element "p" (some "c3") [] [] [], VNode.Element "p" (some "c4") [] [] [],
     VNode.Element "p" (some "c5") [] [] [], VNode.Element "p" (some "c6") [] [] []]
    [VNode.Element "p" (some "c1") [] [] [], VNode.Element "p" (some "c4") [] [] [],
     VNode.Element "p" (some "c5") [] [] []]
    [NodeOp.Skip 1, NodeOp.Remove 2, NodeOp.Skip 2, NodeOp.Remove 1] none rfl⟩

/-! ## C6 — positions_lis computes a longest strictly-increasing subsequence -/

theorem get?_eq_some_getD {α : Type} (l : List α) (i : Nat) (d : α) (h : i < l.length) :
    l.get? i = some (l.getD i d) := by
  rw [List.getD_eq_getElem?_getD, List.get?_eq_getElem?, List.getElem?_eq_getElem h]
  rfl

theorem getD_set_self {α : Type} (l : List α) (i : Nat) (a d : α) (h : i < l.length) :
    (l.set i a).getD i d = a := by
  rw [List.getD_eq_getElem?_getD, List.getElem?_set_self]
  · rfl
  · exact h

theorem getD_set_ne {α : Type} (l : List α) (i j : Nat) (a d : α) (h : i ≠ j) :
    (l.set i a).getD j d = l.getD j d := by
  rw [List.getD_eq_getElem?_getD, List.getD_eq_getElem?_getD, List.getElem?_set_ne h]

theorem pairwise_le_getLast {l : List Nat} {a : Nat}
    (hpw : List.Pairwise (· < ·) l) (hl : l.getLast? = some a) :
    ∀ t ∈ l, t ≤ a := by
  induction l with
  | nil => intro t ht; cases ht
  | cons x xs ih =>
      intro t ht
      cases xs with
      | nil =>
          rcases List.mem_singleton.1 ht with rfl
          simp at hl
          omega
      | cons y ys =>
          rw [List.getLast?_cons_cons] at hl
          rcases List.mem_cons.1 ht with rfl | ht
          · have hy : ∀ u ∈ y :: ys, t < u := (List.pairwise_cons.1 hpw).1
            have : y :: ys ≠ [] := by simp
            have hmem : a ∈ y :: ys := by
              have hne : (y :: ys : List Nat) ≠ [] := by simp
              rw [List.getLast?_eq_getLast_of_ne_nil hne] at hl
              cases hl
              exact List.getLast_mem hne
            exact le_of_lt (hy a hmem)
          · exact ih (List.pairwise_cons.1 hpw).2 hl t ht

theorem chainGood_mono_i (ps : List (Option Nat)) (pr : List Nat) :
    ∀ (j k i i' : Nat), i ≤ i' → ChainGood ps pr i j k → ChainGood ps pr i' j k := by
  intro j
  induction j using Nat.strong_induction_on with
  | _ j ih =>
    match j with
    | 0 => intro k i i' hle h; trivial
    | 1 =>
        intro k i i' hle h
        exact ⟨lt_of_lt_of_le h.1 hle, h.2⟩
    | j + 2 =>
        intro k i i' hle h
        rcases h with ⟨h1, h2, h3, h4, h5⟩
        exact ⟨lt_of_lt_of_le h1 hle, h2, h3, h4, ih (j + 1) (by omega) _ i i' hle h5⟩

theorem chainGood_set_p (ps : List (Option Nat)) (pr : List Nat) (i : Nat) (v : Nat) :
    ∀ (j k : Nat), k < i → ChainGood ps pr i j k → ChainGood ps (pr.set i v) i j k := by
  intro j
  induction j using Nat.strong_induction_on with
  | _ j ih =>
    match j with
    | 0 => intro k hk h; trivial
    | 1 => intro k hk h; exact h
    | j + 2 =>
        intro k hk h
        rcases h with ⟨h1, h2, h3, h4, h5⟩
        have hne : i ≠ k := by omega
        refine ⟨h1, h2, ?_, ?_, ?_⟩
        · rw [getD_set_ne _ _ _ _ _ hne]
          exact h3
        · rw [getD_set_ne _ _ _ _ _ hne]
          exact h4
        · rw [getD_set_ne _ _ _ _ _ hne]
          exact ih (j + 1) (by omega) _ (by omega) h5

theorem chainGood_subseq (ps : List (Option Nat)) (pr : List Nat) (i : Nat) :
    ∀ (j k : Nat), 1 ≤ j → ChainGood ps pr i j k →
      IncSubseq ps (chainIdxs pr j k) ∧ (chainIdxs pr j k).length = j ∧
        (chainIdxs pr j k).getLast? = some k ∧ ∀ t ∈ chainIdxs pr j k, t < i := by
  intro j
  induction j using Nat.strong_induction_on with
  | _ j ih =>
    match j with
    | 0 => intro k h0 h; exact absurd h0 (by omega)
    | 1 =>
        intro k _ h
        have hc : chainIdxs pr 1 k = [k] := rfl
        rw [hc]
        refine ⟨⟨List.pairwise_singleton _ _, ?_, ?_⟩, rfl, rfl, ?_⟩
        · intro t ht
          rcases List.mem_singleton.1 ht with rfl
          exact h.2
        · exact List.pairwise_singleton _ _
        · intro t ht
          rcases List.mem_singleton.1 ht with rfl
          exact h.1
    | j + 2 =>
        intro k _ h
        rcases h with ⟨h1, h2, h3, h4, h5⟩
        rcases ih (j + 1) (by omega) (pr.getD k 0) (by omega) h5 with
          ⟨⟨hpw, hdef, hvals⟩, hlen, hlast, hbnd⟩
        have hle : ∀ t ∈ chainIdxs pr (j + 1) (pr.getD k 0), t ≤ pr.getD k 0 :=
          pairwise_le_getLast hpw hlast
        have hvlast : (List.map (valAt ps) (chainIdxs pr (j + 1) (pr.getD k 0))).getLast?
            = some (valAt ps (pr.getD k 0)) := by
          rw [List.getLast?_map, hlast]
          rfl
        have hvle : ∀ v ∈ List.map (valAt ps) (chainIdxs pr (j + 1) (pr.getD k 0)),
            v ≤ valAt ps (pr.getD k 0) := pairwise_le_getLast hvals hvlast
        refine ⟨⟨?_, ?_, ?_⟩, ?_, ?_, ?_⟩
        · rw [chainIdxs, List.pairwise_append]
          refine ⟨hpw, List.pairwise_singleton _ _, ?_⟩
          intro a ha b hb
          rcases List.mem_singleton.1 hb with rfl
          have := hle a ha
          omega
        · intro t ht
          rw [chainIdxs] at ht
          rcases List.mem_append.1 ht with ht | ht
          · exact hdef t ht
          · rcases List.mem_singleton.1 ht with rfl
            exact h2
        · rw [chainIdxs, List.map_append, List.pairwise_append]
          refine ⟨hvals, List.pairwise_singleton _ _, ?_⟩
          intro a ha b hb
          rcases List.mem_singleton.1 hb with rfl
          have := hvle a ha
          omega
        · rw [chainIdxs, List.length_append, hlen]
          rfl
        · rw [chainIdxs, List.getLast?_concat]
        · intro t ht
          rw [chainIdxs] at ht
          rcases List.mem_append.1 ht with ht | ht
          · exact hbnd t ht
          · rcases List.mem_singleton.1 ht with rfl
            exact h1

theorem chainGood_head (ps : List (Option Nat)) (pr : List Nat) (i : Nat) :
    ∀ (j k : Nat), 1 ≤ j → ChainGood ps pr i j k → k < i ∧ DefinedAt ps k := by
  intro j
  match j with
  | 0 => intro k h1 h; exact absurd h1 (by omega)
  | 1 => intro k h1 h; exact ⟨h.1, h.2⟩
  | j + 2 => intro k h1 h; exact ⟨h.1, h.2.1⟩

theorem incSubseq_append_left (ps : List (Option Nat)) (c d : List Nat)
    (h : IncSubseq ps (c ++ d)) : IncSubseq ps c := by
  rcases h with ⟨hpw, hdef, hvals⟩
  refine ⟨(List.pairwise_append.1 hpw).1, fun t ht => hdef t (List.mem_append_left d ht), ?_⟩
  rw [List.map_append] at hvals
  exact (List.pairwise_append.1 hvals).1

theorem incSubseq_concat (ps : List (Option Nat)) (c : List Nat) (t0 k : Nat)
    (hc : IncSubseq ps c) (hlast : c.getLast? = some t0) (htk : t0 < k)
    (hvk : valAt ps t0 < valAt ps k) (hdk : DefinedAt ps k) :
    IncSubseq ps (c ++ [k]) := by
  rcases hc with ⟨hpw, hdef, hvals⟩
  have hle := pairwise_le_getLast hpw hlast
  have hvlast : (c.map (valAt ps)).getLast? = some (valAt ps t0) := by
    rw [List.getLast?_map, hlast]
    rfl
  have hvle := pairwise_le_getLast hvals hvlast
  refine ⟨?_, ?_, ?_⟩
  · rw [List.pairwise_append]
    refine ⟨hpw, List.pairwise_singleton _ _, ?_⟩
    intro a ha b hb
    rcases List.mem_singleton.1 hb with rfl
    have := hle a ha
    omega
  · intro t ht
    rcases List.mem_append.1 ht with ht | ht
    · exact hdef t ht
    · rcases List.mem_singleton.1 ht with rfl
      exact hdk
  · rw [List.map_append, List.pairwise_append]
    refine ⟨hvals, List.pairwise_singleton _ _, ?_⟩
    intro a ha b hb
    rcases List.mem_singleton.1 hb with rfl
    have := hvle a ha
    omega

theorem pairwise_getLast_of_max {l : List Nat} {a : Nat}
    (hpw : List.Pairwise (· < ·) l) (ha : a ∈ l) (hmax : ∀ t ∈ l, t ≤ a) :
    l.getLast? = some a := by
  have hne : l ≠ [] := fun h => by subst h; cases ha
  rw [List.getLast?_eq_getLast_of_ne_nil hne]
  have hlm : l.getLast hne ∈ l := List.getLast_mem hne
  have h1 : a ≤ l.getLast hne :=
    pairwise_le_getLast hpw (List.getLast?_eq_getLast_of_ne_nil hne) a ha
  have h2 : l.getLast hne ≤ a := hmax _ hlm
  have h3 : l.getLast hne = a := by omega
  rw [h3]

theorem pairwise_lt_length_le {idxs : List Nat} {n : Nat}
    (hpw : List.Pairwise (· < ·) idxs) (hbnd : ∀ t ∈ idxs, t < n) :
    idxs.length ≤ n := by
  have hnd : idxs.Nodup := hpw.imp Nat.ne_of_lt
  have hsub : idxs ⊆ List.range n := fun _ ht => List.mem_range.2 (hbnd _ ht)
  have := (List.subperm_of_subset hnd hsub).length_le
  simpa using this

theorem pairwise_lt_eq_range {idxs : List Nat} {n : Nat}
    (hpw : List.Pairwise (· < ·) idxs) (hbnd : ∀ t ∈ idxs, t < n)
    (hlen : n ≤ idxs.length) : idxs = List.range n := by
  have hnd : idxs.Nodup := hpw.imp Nat.ne_of_lt
  have hsub : idxs ⊆ List.range n := fun _ ht => List.mem_range.2 (hbnd _ ht)
  have hperm : idxs.Perm (List.range n) :=
    (List.subperm_of_subset hnd hsub).perm_of_length_le (by simpa using hlen)
  haveI : IsAntisymm Nat (· < ·) := IsAsymm.isAntisymm _
  exact List.eq_of_perm_of_sorted hperm hpw (List.sorted_lt_range n)

theorem valAt_cons_succ (x : Option Nat) (xs : List (Option Nat)) (t : Nat) :
    valAt (x :: xs) (t + 1) = valAt xs t := by
  simp [valAt]

theorem filterMap_id_eq_map_valAt :
    ∀ (ps : List (Option Nat)), (∀ x ∈ ps, x.isSome = true) →
      ps.filterMap id = (List.range ps.length).map (valAt ps) := by
  intro ps
  induction ps with
  | nil => intro _; rfl
  | cons x xs ih =>
      intro hall
      have hx := hall x (List.mem_cons_self x xs)
      have hxs : ∀ y ∈ xs, y.isSome = true := fun y hy => hall y (List.mem_cons_of_mem x hy)
      cases x with
      | none => simp at hx
      | some v =>
          have hfm : (some v :: xs).filterMap id = v :: xs.filterMap id := by
            simp [List.filterMap_cons]
          rw [hfm, ih hxs, List.length_cons, List.range_succ_eq_map, List.map_cons,
            List.map_map]
          congr 1

theorem incSubseq_length_le (ps : List (Option Nat)) (idxs : List Nat)
    (h : IncSubseq ps idxs) : idxs.length ≤ ps.length :=
  pairwise_lt_length_le h.1 (fun t ht => (h.2.1 t ht).1)

theorem hmax_of_not_full (ps : List (Option Nat))
    (hnf : ¬((∀ x ∈ ps, x.isSome = true) ∧ List.Pairwise (· < ·) (ps.filterMap id))) :
    ∀ idxs, IncSubseq ps idxs → idxs.length ≤ ps.length - 1 := by
  intro idxs h
  by_contra hc
  push_neg at hc
  have hle : idxs.length ≤ ps.length := incSubseq_length_le ps idxs h
  have heq : idxs = List.range ps.length :=
    pairwise_lt_eq_range h.1 (fun t ht => (h.2.1 t ht).1) (by omega)
  apply hnf
  have hall : ∀ x ∈ ps, x.isSome = true := by
    intro x hx
    rcases List.mem_iff_getElem.1 hx with ⟨t, hlt, rfl⟩
    have htm : t ∈ idxs := by
      rw [heq]
      exact List.mem_range.2 hlt
    have hdef := (h.2.1 t htm).2
    rwa [List.getD_eq_getElem ps none hlt] at hdef
  refine ⟨hall, ?_⟩
  rw [filterMap_id_eq_map_valAt ps hall, ← heq]
  exact h.2.2

theorem bsearch_spec (ps : List (Option Nat)) (m : List Nat) (p_i : Nat) (L : Nat)
    (hmL : L < m.length)
    (hgood : ∀ j, 1 ≤ j → j ≤ L → DefinedAt ps (m.getD j 0))
    (hs : ∀ j j', 1 ≤ j → j < j' → j' ≤ L →
      valAt ps (m.getD j 0) < valAt ps (m.getD j' 0)) :
    ∀ (gas lo hi : Nat), 1 ≤ lo → hi ≤ L → lo ≤ hi + 1 → hi + 2 ≤ lo + gas →
      (∀ j, 1 ≤ j → j < lo → valAt ps (m.getD j 0) < p_i) →
      (∀ j, hi < j → j ≤ L → p_i ≤ valAt ps (m.getD j 0)) →
      ∃ r, bsearch ps m p_i gas lo hi = some r ∧ 1 ≤ r ∧ r ≤ hi + 1 ∧
        (∀ j, 1 ≤ j → j < r → valAt ps (m.getD j 0) < p_i) ∧
        (∀ j, r ≤ j → j ≤ L → p_i ≤ valAt ps (m.getD j 0)) := by
  intro gas
  induction gas with
  | zero =>
      intro lo hi hlo hhi hlohi hgas hleft hright
      exact absurd hgas (by omega)
  | succ g ih =>
      intro lo hi hlo hhi hlohi hgas hleft hright
      simp only [bsearch]
      by_cases hcmp : lo ≤ hi
      · rw [if_pos hcmp]
        have hmidlt : (lo + hi) / 2 < m.length := by omega
        have hm1 : 1 ≤ (lo + hi) / 2 := by omega
        have hmhi : (lo + hi) / 2 ≤ hi := by omega
        have hmlo : lo ≤ (lo + hi) / 2 := by omega
        have hget : m.get? ((lo + hi) / 2) = some (m.getD ((lo + hi) / 2) 0) :=
          get?_eq_some_getD m _ 0 hmidlt
        have hdef := hgood _ hm1 (by omega)
        have hpsget : ps.get? (m.getD ((lo + hi) / 2) 0) =
            some (ps.getD (m.getD ((lo + hi) / 2) 0) none) :=
          get?_eq_some_getD ps _ none hdef.1
        rcases Option.isSome_iff_exists.1 hdef.2 with ⟨v, hv⟩
        have hvval : v = valAt ps (m.getD ((lo + hi) / 2) 0) := by
          rw [valAt, hv]
          rfl
        have hscrut : (m.get? ((lo + hi) / 2)).bind (fun idx => ps.get? idx) =
            some (some v) := by
          rw [hget]
          show ps.get? (m.getD ((lo + hi) / 2) 0) = some (some v)
          rw [hpsget, hv]
        simp only [hscrut]
        by_cases hvp : v < p_i
        · rw [if_pos hvp]
          refine ih ((lo + hi) / 2 + 1) hi (by omega) hhi (by omega) (by omega) ?_ hright
          intro j hj1 hjlt
          by_cases hjlo : j < lo
          · exact hleft j hj1 hjlo
          · rcases Nat.lt_or_ge j ((lo + hi) / 2) with hlt | hge
            · have := hs j ((lo + hi) / 2) hj1 hlt (by omega)
              omega
            · have hje : j = (lo + hi) / 2 := by omega
              rw [hje, ← hvval]
              exact hvp
        · rw [if_neg hvp]
          have hnright : ∀ j, (lo + hi) / 2 - 1 < j → j ≤ L →
              p_i ≤ valAt ps (m.getD j 0) := by
            intro j hj1 hj2
            rcases Nat.lt_or_ge ((lo + hi) / 2) j with hlt | hge
            · have := hs ((lo + hi) / 2) j hm1 hlt hj2
              omega
            · have hje : j = (lo + hi) / 2 := by omega
              rw [hje, ← hvval]
              omega
          have hres := ih lo ((lo + hi) / 2 - 1) hlo (by omega) (by omega) (by omega)
            hleft hnright
          rcases hres with ⟨r, hr, h1, h2, h3, h4⟩
          exact ⟨r, hr, h1, by omega, h3, h4⟩
      · rw [if_neg hcmp]
        exact ⟨lo, rfl, hlo, by omega, hleft, fun j hj1 hj2 => hright j (by omega) hj2⟩

theorem lisInv_l_le {ps : List (Option Nat)} {i : Nat} {m pr : List Nat} {l : Nat}
    (inv : LisInv ps i m pr l)
    (hmax : ∀ idxs, IncSubseq ps idxs → idxs.length ≤ ps.length - 1) :
    l ≤ ps.length - 1 := by
  rcases Nat.eq_zero_or_pos l with rfl | hl
  · omega
  · rcases chainGood_subseq ps pr i l (m.getD l 0) hl (inv.hchain l hl le_rfl) with
      ⟨hsub, hlen, _, _⟩
    have := hmax _ hsub
    omega

theorem lisStep_preserves (ps : List (Option Nat)) (i : Nat) (m pr : List Nat) (l : Nat)
    (hmax : ∀ idxs, IncSubseq ps idxs → idxs.length ≤ ps.length - 1)
    (hi : i < ps.length) (inv : LisInv ps i m pr l) :
    ∃ m' pr' l', lisStep ps (m, pr, l) i = some (m', pr', l') ∧
      LisInv ps (i + 1) m' pr' l' := by
  have hget : ps.get? i = some (ps.getD i none) := get?_eq_some_getD ps i none hi
  have hmlen := inv.hm
  have hplen := inv.hp
  cases hpsi : ps.getD i none with
  | none =>
      refine ⟨m, pr, l, by simp only [lisStep, hget, hpsi], ?_⟩
      refine ⟨inv.hm, inv.hp, ?_, inv.hsorted, ?_⟩
      · intro j h1 h2
        exact chainGood_mono_i ps pr j _ i (i + 1) (by omega) (inv.hchain j h1 h2)
      · intro idxs hsub hbnd hne
        refine inv.hmin idxs hsub ?_ hne
        intro t ht
        have hb := hbnd t ht
        have hti : t ≠ i := by
          intro he
          have hd := (hsub.2.1 t ht).2
          rw [he, hpsi] at hd
          simp at hd
        omega
  | some p_i =>
      have hvi : valAt ps i = p_i := by
        rw [valAt, hpsi]
        rfl
      have hdefi : DefinedAt ps i := ⟨hi, by rw [hpsi]; rfl⟩
      have hlle : l ≤ ps.length - 1 := lisInv_l_le inv hmax
      have hlm : l < m.length := by omega
      rcases bsearch_spec ps m p_i l hlm
          (fun j h1 h2 => (chainGood_head ps pr i j _ h1 (inv.hchain j h1 h2)).2)
          inv.hsorted (l + 2) 1 l (by omega) le_rfl (by omega) (by omega)
          (fun j h1 h2 => absurd h1 (by omega))
          (fun j h1 h2 => absurd h1 (by omega)) with
        ⟨new_l, hbs, hr1, hr2, hleft, hright⟩
      have hnewsub : ∃ idxs, IncSubseq ps idxs ∧ idxs.length = new_l := by
        rcases Nat.lt_or_ge new_l 2 with h2 | h2
        · have h1 : new_l = 1 := by omega
          refine ⟨[i], ⟨List.pairwise_singleton _ _, ?_, List.pairwise_singleton _ _⟩, h1.symm⟩
          intro t ht
          rcases List.mem_singleton.1 ht with rfl
          exact hdefi
        · obtain ⟨j, rfl⟩ : ∃ j, new_l = j + 2 := ⟨new_l - 2, by omega⟩
          have hj1l : j + 1 ≤ l := by omega
          rcases chainGood_subseq ps pr i (j + 1) (m.getD (j + 1) 0) (by omega)
              (inv.hchain (j + 1) (by omega) hj1l) with ⟨hcs, hclen, hclast, hcbnd⟩
          have hhead := chainGood_head ps pr i (j + 1) (m.getD (j + 1) 0) (by omega)
            (inv.hchain (j + 1) (by omega) hj1l)
          refine ⟨chainIdxs pr (j + 1) (m.getD (j + 1) 0) ++ [i],
            incSubseq_concat ps _ _ i hcs hclast hhead.1 ?_ hdefi, ?_⟩
          · rw [hvi]
            exact hleft (j + 1) (by omega) (by omega)
          · rw [List.length_append, hclen]
            rfl
      have hnewle : new_l ≤ ps.length - 1 := by
        rcases hnewsub with ⟨idxs, hs', hl'⟩
        have := hmax idxs hs'
        omega
      have hpget : m.get? (new_l - 1) = some (m.getD (new_l - 1) 0) :=
        get?_eq_some_getD m _ 0 (by omega)
      have hset_p : setO pr i (m.getD (new_l - 1) 0) =
          some (pr.set i (m.getD (new_l - 1) 0)) := by
        rw [setO, if_pos (by omega : i < pr.length)]
      have hset_m : setO m new_l i = some (m.set new_l i) := by
        rw [setO, if_pos (by omega : new_l < m.length)]
      have hp'i : (pr.set i (m.getD (new_l - 1) 0)).getD i 0 = m.getD (new_l - 1) 0 :=
        getD_set_self pr i _ 0 (by omega)
      have hm'new : (m.set new_l i).getD new_l 0 = i :=
        getD_set_self m new_l i 0 (by omega)
      have htrans : ∀ j k, k < i → ChainGood ps pr i j k →
          ChainGood ps (pr.set i (m.getD (new_l - 1) 0)) (i + 1) j k :=
        fun j k hk h => chainGood_mono_i ps _ j k i (i + 1) (by omega)
          (chainGood_set_p ps pr i _ j k hk h)
      have hchain_new : ChainGood ps (pr.set i (m.getD (new_l - 1) 0)) (i + 1) new_l i := by
        rcases Nat.lt_or_ge new_l 2 with h2 | h2
        · have h1 : new_l = 1 := by omega
          rw [h1]
          exact ⟨by omega, hdefi⟩
        · obtain ⟨j, rfl⟩ : ∃ j, new_l = j + 2 := ⟨new_l - 2, by omega⟩
          have hj1l : j + 1 ≤ l := by omega
          have hhead := chainGood_head ps pr i (j + 1) (m.getD (j + 1) 0) (by omega)
            (inv.hchain (j + 1) (by omega) hj1l)
          refine ⟨by omega, hdefi, ?_, ?_, ?_⟩
          · rw [hp'i]
            exact hhead.1
          · rw [hp'i, hvi]
            exact hleft (j + 1) (by omega) (by omega)
          · rw [hp'i]
            exact htrans (j + 1) _ hhead.1 (inv.hchain (j + 1) (by omega) hj1l)
      have key : ∀ ll, l ≤ ll → new_l ≤ ll → (ll = l ∨ ll = new_l) →
          LisInv ps (i + 1) (m.set new_l i) (pr.set i (m.getD (new_l - 1) 0)) ll := by
        intro ll hll1 hll2 hll4
        have hll5 : ∀ j, j ≤ ll → j ≠ new_l → j ≤ l := by
          intro j hj hne
          rcases hll4 with rfl | rfl <;> omega
        refine ⟨by rw [List.length_set]; exact inv.hm,
          by rw [List.length_set]; exact inv.hp, ?_, ?_, ?_⟩
        · intro j h1 h2
          by_cases hje : j = new_l
          · subst hje
            rw [hm'new]
            exact hchain_new
          · have hjl : j ≤ l := hll5 j h2 hje
            rw [getD_set_ne m new_l j i 0 (fun he => hje he.symm)]
            exact htrans j _ (chainGood_head ps pr i j _ h1 (inv.hchain j h1 hjl)).1
              (inv.hchain j h1 hjl)
        · intro j j' h1 h2 h3
          by_cases hj : j = new_l <;> by_cases hj' : j' = new_l
          · exact absurd h2 (by omega)
          · have hj'l : j' ≤ l := hll5 j' h3 hj'
            rw [hj, hm'new, getD_set_ne m new_l j' i 0 (fun he => hj' he.symm), hvi]
            have ha := hright new_l le_rfl (by omega)
            have hb := inv.hsorted new_l j' hr1 (by omega) hj'l
            omega
          · rw [hj', hm'new, getD_set_ne m new_l j i 0 (fun he => hj he.symm), hvi]
            exact hleft j h1 (by omega)
          · have hj'l : j' ≤ l := hll5 j' h3 hj'
            rw [getD_set_ne m new_l j i 0 (fun he => hj he.symm),
              getD_set_ne m new_l j' i 0 (fun he => hj' he.symm)]
            exact inv.hsorted j j' h1 h2 hj'l
        · intro idxs hsub hbnd hne
          by_cases hmem : i ∈ idxs
          · have hmaxel : ∀ t ∈ idxs, t ≤ i := fun t ht => by
              have := hbnd t ht
              omega
            have hlast : idxs.getLast? = some i :=
              pairwise_getLast_of_max hsub.1 hmem hmaxel
            have hdecomp : idxs.dropLast ++ [i] = idxs :=
              List.dropLast_append_getLast? i hlast
            have hlen : idxs.dropLast.length + 1 = idxs.length := by
              conv_rhs => rw [← hdecomp]
              rw [List.length_append]
              rfl
            have hsub' : IncSubseq ps (idxs.dropLast ++ [i]) := by
              rw [hdecomp]
              exact hsub
            have hlastval : ((idxs.map (valAt ps)).getLast?).getD 0 = p_i := by
              rw [List.getLast?_map, hlast]
              exact hvi
            by_cases hc : idxs.dropLast = []
            · have hlen1 : idxs.length = 1 := by
                rw [← hlen, hc]
                rfl
              constructor
              · omega
              · rw [hlen1, hlastval]
                by_cases h1n : new_l = 1
                · rw [← h1n, hm'new, hvi]
                · rw [getD_set_ne m new_l 1 i 0 h1n]
                  have := hleft 1 le_rfl (by omega)
                  omega
            · have hcsub : IncSubseq ps idxs.dropLast :=
                incSubseq_append_left ps _ [i] hsub'
              have hcbnd : ∀ t ∈ idxs.dropLast, t < i := by
                have hpw := hsub'.1
                rw [List.pairwise_append] at hpw
                intro t ht
                exact hpw.2.2 t ht i (List.mem_singleton_self i)
              have hold := inv.hmin idxs.dropLast hcsub hcbnd hc
              have ht0 := List.getLast?_eq_getLast_of_ne_nil hc
              have ht0mem : idxs.dropLast.getLast hc ∈ idxs.dropLast :=
                List.getLast_mem hc
              have hvt0 : valAt ps (idxs.dropLast.getLast hc) < p_i := by
                have hpw := hsub'.2.2
                rw [List.map_append, List.pairwise_append] at hpw
                have := hpw.2.2 (valAt ps (idxs.dropLast.getLast hc))
                  (List.mem_map_of_mem _ ht0mem) (valAt ps i)
                  (by rw [List.map_singleton]; exact List.mem_singleton_self _)
                rw [hvi] at this
                exact this
              have hlastc : ((idxs.dropLast.map (valAt ps)).getLast?).getD 0 =
                  valAt ps (idxs.dropLast.getLast hc) := by
                rw [List.getLast?_map, ht0]
                rfl
              have hclt : idxs.dropLast.length < new_l := by
                by_contra hcon
                push_neg at hcon
                have hri := hright idxs.dropLast.length hcon hold.1
                have h2 := hold.2
                rw [hlastc] at h2
                omega
              constructor
              · omega
              · rw [hlastval]
                by_cases heq2 : idxs.length = new_l
                · rw [heq2, hm'new, hvi]
                · rw [getD_set_ne m new_l idxs.length i 0 (fun he => heq2 he.symm)]
                  have := hleft idxs.length (by omega) (by omega)
                  omega
          · have hbnd' : ∀ t ∈ idxs, t < i := by
              intro t ht
              have hb := hbnd t ht
              have hti : t ≠ i := fun he => hmem (he ▸ ht)
              omega
            rcases inv.hmin idxs hsub hbnd' hne with ⟨ha, hb⟩
            constructor
            · omega
            · by_cases hl2 : idxs.length = new_l
              · rw [hl2, hm'new, hvi]
                have hr := hright new_l le_rfl (by omega)
                rw [hl2] at hb
                omega
              · rw [getD_set_ne m new_l idxs.length i 0 (fun he => hl2 he.symm)]
                exact hb
      refine ⟨m.set new_l i, pr.set i (m.getD (new_l - 1) 0),
        if new_l > l then new_l else l, ?_, ?_⟩
      · simp only [lisStep, hget, hpsi, hbs, hpget, hset_p, hset_m,
          Option.bind_eq_bind, Option.some_bind]
      · refine key _ ?_ ?_ ?_
        · split_ifs <;> omega
        · split_ifs <;> omega
        · split_ifs with h
          · right
            rfl
          · left
            rfl

theorem lisInv_init (ps : List (Option Nat)) :
    LisInv ps 0 (List.replicate ps.length 0) (List.replicate ps.length 0) 0 := by
  refine ⟨by simp, by simp, ?_, ?_, ?_⟩
  · intro j h1 h2
    exact absurd (le_trans h1 h2) (by omega)
  · intro j j' h1 h2 h3
    exact absurd h3 (by omega)
  · intro idxs hsub hbnd hne
    rcases List.exists_mem_of_ne_nil idxs hne with ⟨t, ht⟩
    exact absurd (hbnd t ht) (by omega)

theorem lis_fold_inv (ps : List (Option Nat))
    (hmax : ∀ idxs, IncSubseq ps idxs → idxs.length ≤ ps.length - 1) :
    ∀ i, i ≤ ps.length →
      ∃ m pr l, (List.range i).foldlM (lisStep ps)
          (List.replicate ps.length 0, List.replicate ps.length 0, 0) = some (m, pr, l) ∧
        LisInv ps i m pr l := by
  intro i
  induction i with
  | zero =>
      intro _
      exact ⟨_, _, _, rfl, lisInv_init ps⟩
  | succ i ih =>
      intro hle
      rcases ih (by omega) with ⟨m, pr, l, hfold, inv⟩
      rcases lisStep_preserves ps i m pr l hmax (by omega) inv with
        ⟨m', pr', l', hstep, inv'⟩
      refine ⟨m', pr', l', ?_, inv'⟩
      rw [List.range_succ, List.foldlM_append, hfold]
      simp only [Option.bind_eq_bind, Option.some_bind, List.foldlM_cons,
        List.foldlM_nil, hstep, Option.pure_def]

theorem chainGood_tail (ps : List (Option Nat)) (pr : List Nat) (N : Nat) :
    ∀ j k, ChainGood ps pr N (j + 1) k → ChainGood ps pr N j (pr.getD k 0) := by
  intro j
  match j with
  | 0 => intro k h; trivial
  | j + 1 => intro k h; exact h.2.2.2.2

theorem lisRebuild_fold_aux (ps : List (Option Nat)) (pr : List Nat) (N : Nat)
    (hpl : pr.length = ps.length) :
    ∀ (xs : List Nat) (k : Nat) (acc : List Nat),
      ChainGood ps pr N xs.length k →
      ∃ kf, List.foldlM (fun acc _ => lisRebuildStep ps pr acc) (acc, k) xs =
        some ((chainIdxs pr xs.length k).map (valAt ps) ++ acc, kf) := by
  intro xs
  induction xs with
  | nil =>
      intro k acc hch
      exact ⟨k, rfl⟩
  | cons x xs ih =>
      intro k acc hch
      have hd := (chainGood_head ps pr N (xs.length + 1) k (by omega) hch).2
      rcases Option.isSome_iff_exists.1 hd.2 with ⟨v, hv⟩
      have hvk : valAt ps k = v := by
        rw [valAt, hv]
        rfl
      have hpg : ps.get? k = some (ps.getD k none) := get?_eq_some_getD ps k none hd.1
      have hprg : pr.get? k = some (pr.getD k 0) :=
        get?_eq_some_getD pr k 0 (by rw [hpl]; exact hd.1)
      have hstep : lisRebuildStep ps pr (acc, k) = some (valAt ps k :: acc, pr.getD k 0) := by
        simp only [lisRebuildStep, hpg, hv, Option.bind_eq_bind, hprg, Option.some_bind,
          hvk]
      rcases ih (pr.getD k 0) (valAt ps k :: acc)
          (chainGood_tail ps pr N xs.length k hch) with ⟨kf, hf⟩
      refine ⟨kf, ?_⟩
      rw [List.foldlM_cons]
      simp only [Option.bind_eq_bind, hstep, Option.some_bind]
      rw [hf]
      rw [List.length_cons, chainIdxs, List.map_append, List.append_assoc]
      rfl

theorem lisRebuild_spec (ps : List (Option Nat)) (pr : List Nat) (N : Nat)
    (hpl : pr.length = ps.length) (j k : Nat) (hch : ChainGood ps pr N j k) :
    lisRebuild ps pr j k = some ((chainIdxs pr j k).map (valAt ps)) := by
  rcases lisRebuild_fold_aux ps pr N hpl (List.range j) k []
      (by rw [List.length_range]; exact hch) with ⟨kf, hf⟩
  rw [lisRebuild, hf]
  rw [List.length_range, List.append_nil]
  rfl

theorem positions_lis_spec (ps : List (Option Nat)) (hne : ps ≠ [])
    (hmax : ∀ idxs, IncSubseq ps idxs → idxs.length ≤ ps.length - 1) :
    ∃ idxs, positions_lis ps = some (idxs.map (valAt ps)) ∧ IncSubseq ps idxs ∧
      ∀ idxs', IncSubseq ps idxs' → idxs'.length ≤ idxs.length := by
  have hn1 : 0 < ps.length := List.length_pos.2 hne
  rcases lis_fold_inv ps hmax ps.length le_rfl with ⟨m, pr, l, hfold, inv⟩
  have hlle : l ≤ ps.length - 1 := lisInv_l_le inv hmax
  have hmlen := inv.hm
  have hlm : l < m.length := by omega
  have hk0 : m.get? l = some (m.getD l 0) := get?_eq_some_getD m l 0 hlm
  rcases Nat.eq_zero_or_pos l with rfl | hl1
  · refine ⟨[], ?_,
      ⟨List.Pairwise.nil, fun t ht => absurd ht (List.not_mem_nil t),
        List.Pairwise.nil⟩, ?_⟩
    · simp only [positions_lis, hfold, Option.bind_eq_bind, Option.some_bind, hk0]
      rfl
    · intro idxs' hs'
      by_cases hne' : idxs' = []
      · subst hne'
        simp
      · rcases inv.hmin idxs' hs' (fun t ht => (hs'.2.1 t ht).1) hne' with ⟨ha, _⟩
        simpa using ha
  · have hch := inv.hchain l hl1 le_rfl
    rcases chainGood_subseq ps pr ps.length l (m.getD l 0) hl1 hch with
      ⟨hcs, hclen, hclast, hcbnd⟩
    refine ⟨chainIdxs pr l (m.getD l 0), ?_, hcs, ?_⟩
    · simp only [positions_lis, hfold, Option.bind_eq_bind, Option.some_bind, hk0]
      exact lisRebuild_spec ps pr ps.length inv.hp l (m.getD l 0) hch
    · intro idxs' hs'
      rw [hclen]
      by_cases hne' : idxs' = []
      · subst hne'
        simp
      · exact (inv.hmin idxs' hs' (fun t ht => (hs'.2.1 t ht).1) hne').1

/-- C6 (amended): for every nonempty `positions` whose entries are not all
defined with strictly increasing values, `positions_lis` returns exactly
the values of a longest strictly-increasing subsequence of the defined
entries taken in index order: the returned list is the image under the
entry values of an index list that is strictly increasing, denotes only
defined entries, has strictly increasing values, and is of maximal length
among all such index lists.  (On the excluded inputs — an empty vector, or
one whose entries are all defined and strictly increasing — the source
panics instead of returning; see `C6_counterexample`.) -/
theorem C6_positions_lis_longest (ps : List (Option Nat)) (hne : ps ≠ [])
    (hnf : ¬((∀ x ∈ ps, x.isSome = true) ∧ List.Pairwise (· < ·) (ps.filterMap id))) :
    ∃ idxs, positions_lis ps = some (idxs.map (valAt ps)) ∧ IncSubseq ps idxs ∧
      ∀ idxs', IncSubseq ps idxs' → idxs'.length ≤ idxs.length :=
  positions_lis_spec ps hne (hmax_of_not_full ps hnf)

/-- C6 counterexample to the unrestricted claim: on `positions = [some 0]`
(one entry, defined) the claimed longest subsequence exists — `[0]` is a
strictly-increasing subsequence of the defined entries — but the source
panics (`m[new_l]` with `new_l = 1` is out of bounds for the length-1
tails array) and returns nothing. -/
theorem C6_counterexample :
    positions_lis [some 0] = none ∧ IncSubseq [some 0] [0] := by
  refine ⟨rfl, List.pairwise_singleton _ _, ?_, List.pairwise_singleton _ _⟩
  intro t ht
  rcases List.mem_singleton.1 ht with rfl
  exact ⟨by decide, by decide⟩

theorem C6_positions_lis_longest_witness :
    ∃ idxs, positions_lis [some 1, some 0] =
        some (idxs.map (valAt [some 1, some 0])) ∧
      IncSubseq [some 1, some 0] idxs ∧
      ∀ idxs', IncSubseq [some 1, some 0] idxs' → idxs'.length ≤ idxs.length :=
  C6_positions_lis_longest [some 1, some 0] (by decide) (by decide)

/-! ## C9 — totality of `diff` under the keyed-middle precondition -/

theorem getD_replicate {α : Type} (a : α) :
    ∀ (n p : Nat), (List.replicate n a).getD p a = a := by
  intro n
  induction n with
  | zero => intro p; cases p <;> rfl
  | succ n ih =>
      intro p
      cases p with
      | zero => rfl
      | succ p => exact ih p

theorem mapM_isSome {α β : Type} (g : α → Option β) :
    ∀ (xs : List α), (∀ x ∈ xs, (g x).isSome = true) → ∃ ys, xs.mapM g = some ys := by
  intro xs
  induction xs with
  | nil => exact fun _ => ⟨[], rfl⟩
  | cons x xs ih =>
      intro h
      rcases Option.isSome_iff_exists.1 (h x (List.mem_cons_self x xs)) with ⟨y, hy⟩
      rcases ih (fun z hz => h z (List.mem_cons_of_mem x hz)) with ⟨ys, hys⟩
      refine ⟨y :: ys, ?_⟩
      rw [List.mapM_cons, hy, hys]
      rfl

theorem mapM_eq_map {α β : Type} (g : α → Option β) (g0 : α → β) :
    ∀ (xs : List α), (∀ x ∈ xs, g x = some (g0 x)) → xs.mapM g = some (xs.map g0) := by
  intro xs
  induction xs with
  | nil => exact fun _ => rfl
  | cons x xs ih =>
      intro h
      rw [List.mapM_cons, h x (List.mem_cons_self x xs),
        ih (fun z hz => h z (List.mem_cons_of_mem x hz))]
      rfl

theorem foldlM_inv_total {σ α : Type} (f : σ → α → Option σ) (I : σ → Prop) :
    ∀ (xs : List α) (s : σ), I s →
      (∀ s' x, x ∈ xs → I s' → ∃ s'', f s' x = some s'' ∧ I s'') →
      ∃ s'', xs.foldlM f s = some s'' ∧ I s'' := by
  intro xs
  induction xs with
  | nil => exact fun s hs _ => ⟨s, rfl, hs⟩
  | cons x xs ih =>
      intro s hs hstep
      rcases hstep s x (List.mem_cons_self x xs) hs with ⟨s1, hf, hs1⟩
      rcases ih s1 hs1 (fun s' z hz => hstep s' z (List.mem_cons_of_mem x hz)) with
        ⟨s2, hfold, hs2⟩
      refine ⟨s2, ?_, hs2⟩
      rw [List.foldlM_cons, hf]
      exact hfold

theorem foldlM_indexed_total {σ α : Type} (f : σ → Nat × α → Option σ)
    (l : List α) (I : Nat → σ → Prop)
    (hstep : ∀ t c s, l.get? t = some c → I t s →
      ∃ s', f s (t, c) = some s' ∧ I (t + 1) s') :
    ∀ (rest : List (Nat × α)) (t : Nat) (s : σ),
      (∀ u x, rest.get? u = some x → x.1 = t + u ∧ l.get? x.1 = some x.2) →
      I t s → ∃ t' s', rest.foldlM f s = some s' ∧ I t' s' := by
  intro rest
  induction rest with
  | nil => exact fun t s _ hs => ⟨t, s, rfl, hs⟩
  | cons x rest ih =>
      intro t s hrest hs
      have hx := hrest 0 x rfl
      have hx1 : x.1 = t := by
        have := hx.1
        omega
      have hget : l.get? t = some x.2 := by
        rw [← hx1]
        exact hx.2
      rcases hstep t x.2 s hget hs with ⟨s1, hf, hs1⟩
      rcases ih (t + 1) s1
          (fun u y hy => by
            rcases hrest (u + 1) y hy with ⟨h1, h2⟩
            exact ⟨by omega, h2⟩) hs1 with ⟨t', s', hfold, hs'⟩
      refine ⟨t', s', ?_, hs'⟩
      rw [List.foldlM_cons]
      have hxeq : x = (t, x.2) := by
        rcases x with ⟨xi, xc⟩
        simp at hx1
        rw [hx1]
      rw [hxeq, hf]
      exact hfold

theorem enumFrom_get?_fst {α : Type} :
    ∀ (l : List α) (s u : Nat) (x : Nat × α),
      (List.enumFrom s l).get? u = some x → x.1 = s + u := by
  intro l
  induction l with
  | nil => intro s u x h; cases h
  | cons a l ih =>
      intro s u x h
      rw [List.enumFrom] at h
      cases u with
      | zero =>
          cases h
          rfl
      | succ u =>
          have := ih (s + 1) u x h
          omega

theorem enum_get?_spec {α : Type} :
    ∀ (l : List α) (u : Nat) (x : Nat × α), l.enum.get? u = some x →
      x.1 = u ∧ l.get? x.1 = some x.2 := by
  intro l u x h
  have hmem : x ∈ l.enum := List.get?_mem h
  have hspec := enum_mem_spec l x hmem
  have hfst := enumFrom_get?_fst l 0 u x h
  exact ⟨by omega, hspec⟩

theorem lookupLast_mem :
    ∀ (idx : List (String × Nat)) (k : String) (p : Nat),
      lookupLast idx k = some p → (k, p) ∈ idx := by
  have haux : ∀ (idx : List (String × Nat)) (k : String) (acc : Option Nat) (p : Nat),
      idx.foldl (fun acc kv => if kv.1 = k then some kv.2 else acc) acc = some p →
      (k, p) ∈ idx ∨ acc = some p := by
    intro idx
    induction idx with
    | nil => intro k acc p h; exact Or.inr h
    | cons kv idx ih =>
        intro k acc p h
        rw [List.foldl_cons] at h
        rcases ih k _ p h with hmem | hacc
        · exact Or.inl (List.mem_cons_of_mem kv hmem)
        · by_cases hk : kv.1 = k
          · rw [if_pos hk] at hacc
            have hkv : kv = (k, p) := by
              rcases kv with ⟨a, b⟩
              simp at hk hacc ⊢
              exact ⟨hk, hacc⟩
            refine Or.inl ?_
            rw [← hkv]
            exact List.mem_cons_self kv idx
          · rw [if_neg hk] at hacc
            exact Or.inr hacc
  intro idx k p h
  rcases haux idx k none p h with hmem | hacc
  · exact hmem
  · cases hacc

theorem listSize_append : ∀ (a b : List VNode),
    listSize (a ++ b) = listSize a + listSize b := by
  intro a
  induction a with
  | nil => intro b; simp [listSize]
  | cons c cs ih =>
      intro b
      rw [List.cons_append, listSize, ih, listSize]
      omega

theorem listSize_take_le (n : Nat) (l : List VNode) : listSize (l.take n) ≤ listSize l := by
  conv_rhs => rw [← List.take_append_drop n l]
  rw [listSize_append]
  omega

theorem listSize_drop_le (n : Nat) (l : List VNode) : listSize (l.drop n) ≤ listSize l := by
  conv_rhs => rw [← List.take_append_drop n l]
  rw [listSize_append]
  omega

theorem listSize_slice_le (pl k : Nat) (l : List VNode) :
    listSize ((l.drop pl).take k) ≤ listSize l :=
  le_trans (listSize_take_le k (l.drop pl)) (listSize_drop_le pl l)

theorem filterMap_key_eq_map :
    ∀ (l : List VNode), (∀ c ∈ l, (VNode.key c).isSome = true) →
      l.filterMap VNode.key = l.map (fun c => (VNode.key c).getD "") := by
  intro l
  induction l with
  | nil => intro _; rfl
  | cons c cs ih =>
      intro h
      have hc := h c (List.mem_cons_self c cs)
      rcases Option.isSome_iff_exists.1 hc with ⟨k, hk⟩
      simp [List.filterMap_cons, hk, ih (fun z hz => h z (List.mem_cons_of_mem c hz))]

theorem key_inj_of_nodup (l : List VNode)
    (hall : ∀ c ∈ l, (VNode.key c).isSome = true)
    (hnd : (l.filterMap VNode.key).Nodup) :
    ∀ i j ci cj k, l.get? i = some ci → l.get? j = some cj →
      VNode.key ci = some k → VNode.key cj = some k → i = j := by
  rw [filterMap_key_eq_map l hall] at hnd
  intro i j ci cj k hi hj hki hkj
  rcases List.get?_eq_some.1 hi with ⟨hil, hgi⟩
  rcases List.get?_eq_some.1 hj with ⟨hjl, hgj⟩
  have hci : l[i] = ci := hgi
  have hcj : l[j] = cj := hgj
  have him : i < (l.map (fun c => (VNode.key c).getD "")).length := by
    rw [List.length_map]
    exact hil
  have hjm : j < (l.map (fun c => (VNode.key c).getD "")).length := by
    rw [List.length_map]
    exact hjl
  have heq : (l.map (fun c => (VNode.key c).getD ""))[i] =
      (l.map (fun c => (VNode.key c).getD ""))[j] := by
    simp only [List.getElem_map]
    rw [hci, hcj, hki, hkj]
  exact hnd.getElem_inj_iff.1 heq

theorem isSome_bind_of {α β : Type} (a : Option α) (f : α → Option β)
    (ha : a.isSome = true) (h : ∀ x, a = some x → (f x).isSome = true) :
    (a >>= f).isSome = true := by
  rcases Option.isSome_iff_exists.1 ha with ⟨x, hx⟩
  rw [hx]
  exact h x hx

theorem mapM_isSome_of {α β : Type} (g : α → Option β) (xs : List α)
    (h : ∀ x ∈ xs, (g x).isSome = true) : (xs.mapM g).isSome = true := by
  rcases mapM_isSome g xs h with ⟨ys, hys⟩
  rw [hys]
  rfl

theorem foldlM_isSome_of {σ α : Type} (f : σ → α → Option σ) (I : σ → Prop)
    (xs : List α) (s : σ) (hs : I s)
    (hstep : ∀ s' x, x ∈ xs → I s' → ∃ s'', f s' x = some s'' ∧ I s'') :
    (xs.foldlM f s).isSome = true := by
  rcases foldlM_inv_total f I xs s hs hstep with ⟨s'', h, _⟩
  rw [h]
  rfl

theorem foldlM_indexed_isSome {σ α : Type} (f : σ → Nat × α → Option σ)
    (l : List α) (I : Nat → σ → Prop) (s : σ) (hinit : I 0 s)
    (hstep : ∀ t c s0, l.get? t = some c → I t s0 →
      ∃ s1, f s0 (t, c) = some s1 ∧ I (t + 1) s1) :
    (l.enum.foldlM f s).isSome = true := by
  rcases foldlM_indexed_total f l I hstep l.enum 0 s
      (fun u x hx => by
        rcases enum_get?_spec l u x hx with ⟨h1, h2⟩
        exact ⟨by omega, h2⟩) hinit with ⟨t', s', hf, _⟩
  rw [hf]
  rfl

theorem foldlM_indexed_inv_of_eq {σ α : Type} (f : σ → Nat × α → Option σ)
    (l : List α) (I : Nat → σ → Prop)
    (hstep : ∀ t c s0, l.get? t = some c → I t s0 →
      ∃ s1, f s0 (t, c) = some s1 ∧ I (t + 1) s1)
    (s : σ) (hinit : I 0 s) (s' : σ) (heq : l.enum.foldlM f s = some s') :
    ∃ t', I t' s' := by
  rcases foldlM_indexed_total f l I hstep l.enum 0 s
      (fun u x hx => by
        rcases enum_get?_spec l u x hx with ⟨h1, h2⟩
        exact ⟨by omega, h2⟩) hinit with ⟨t', s'', hf, hinv⟩
  rw [heq] at hf
  have hss : s'' = s' := (Option.some.inj hf).symm
  subst hss
  exact ⟨t', hinv⟩

theorem scan_step (omid nmid : List VNode) (kidx : List (String × Nat))
    (hok : ∀ c ∈ omid, (VNode.key c).isSome = true)
    (hond : (omid.filterMap VNode.key).Nodup)
    (hkfact : ∀ k p, lookupLast kidx k = some p → p < nmid.length ∧
      ∃ n, nmid.get? p = some n ∧ VNode.key n = some k)
    (t : Nat) (c : VNode) (s : List (Option Nat) × Nat × Bool × Nat × List NodeOp)
    (hget : omid.get? t = some c) (hinv : ScanInv omid nmid kidx t s) :
    ∃ s1, (match VNode.key c with
      | none => none
      | some k =>
        match lookupLast kidx k with
        | some position => do
            let moved' := s.2.2.1 || decide (s.2.1 > position)
            let op' ← setO s.1 position (some t)
            some (op', position, moved', s.2.2.2.1, s.2.2.2.2)
        | none => do
            let planned' ← setO s.2.2.2.2 t (NodeOp.Remove 1)
            some (s.1, s.2.1, s.2.2.1, s.2.2.2.1 + 1, planned')) = some s1 ∧
      ScanInv omid nmid kidx (t + 1) s1 := by
  have htlen : t < omid.length := (List.get?_eq_some.1 hget).1
  rcases Option.isSome_iff_exists.1 (hok c (List.get?_mem hget)) with ⟨k, hk⟩
  cases hlk : lookupLast kidx k with
  | some position =>
      rcases hkfact k position hlk with ⟨hplt, n, hnget, hnkey⟩
      have hset : setO s.1 position (some t) = some (s.1.set position (some t)) := by
        rw [setO, if_pos]
        rw [hinv.hops]
        exact hplt
      have hposlen : position < s.1.length := by
        rw [hinv.hops]
        exact hplt
      refine ⟨(s.1.set position (some t), position,
        s.2.2.1 || decide (s.2.1 > position), s.2.2.2.1, s.2.2.2.2), ?_, ?_⟩
      · simp only [hk, hlk, Option.bind_eq_bind, hset, Option.some_bind]
      · have hself : (s.1.set position (some t)).getD position none = some t :=
          getD_set_self s.1 position (some t) none hposlen
        refine ⟨by rw [List.length_set]; exact hinv.hops, hinv.hplan, ?_, ?_, ?_⟩
        · intro p i hpi
          by_cases hpp : position = p
          · subst hpp
            rw [hself] at hpi
            have hit : t = i := Option.some.inj hpi
            subst hit
            exact ⟨hplt, by omega, c, hget, k, hk, hlk⟩
          · rw [getD_set_ne s.1 position p (some t) none hpp] at hpi
            rcases hinv.hent p i hpi with ⟨h1, h2, h3⟩
            exact ⟨h1, by omega, h3⟩
        · exact Or.inr ⟨t, hself⟩
        · intro hmv
          rcases Bool.or_eq_true_iff.1 hmv with hold | htrig
          · rcases hinv.hmoved hold with ⟨p1, p2, i1, i2, h12, hp1len, hii, he1, he2⟩
            have hkeyeq : ∀ pz iz, s.1.getD pz none = some iz → position = pz → False := by
              intro pz iz hez hppz
              rcases hinv.hent pz iz hez with ⟨hpzlen, hizt, cz, hcz, kz, hkz, hlkz⟩
              rcases hkfact kz pz hlkz with ⟨_, nz, hnzget, hnzkey⟩
              rw [← hppz] at hnzget
              have hnn : nz = n := Option.some.inj (hnzget ▸ hnget ▸ rfl)
              have hkzk : kz = k := by
                have h1 := hnzkey
                rw [hnn, hnkey] at h1
                exact (Option.some.inj h1).symm
              rw [hkzk] at hkz
              have hiz : iz = t := key_inj_of_nodup omid hok hond iz t cz c k hcz hget hkz hk
              omega
            have hne1 : position ≠ p1 := fun he => hkeyeq p1 i1 he1 he
            have hne2 : position ≠ p2 := fun he => hkeyeq p2 i2 he2 he
            exact ⟨p1, p2, i1, i2, h12, hp1len, hii,
              by rw [getD_set_ne s.1 position p1 (some t) none hne1]; exact he1,
              by rw [getD_set_ne s.1 position p2 (some t) none hne2]; exact he2⟩
          · have hgt : s.2.1 > position := of_decide_eq_true htrig
            rcases hinv.hlastp with h0 | ⟨ilast, hel⟩
            · exact absurd hgt (by omega)
            · rcases hinv.hent s.2.1 ilast hel with ⟨hlplen, hilt, _⟩
              have hne1 : position ≠ s.2.1 := by omega
              refine ⟨s.2.1, position, ilast, t, hgt, hlplen, hilt, ?_, hself⟩
              rw [getD_set_ne s.1 position s.2.1 (some t) none hne1]
              exact hel
  | none =>
      have hsetp : setO s.2.2.2.2 t (NodeOp.Remove 1) =
          some (s.2.2.2.2.set t (NodeOp.Remove 1)) := by
        rw [setO, if_pos]
        rw [hinv.hplan]
        exact htlen
      refine ⟨(s.1, s.2.1, s.2.2.1, s.2.2.2.1 + 1,
        s.2.2.2.2.set t (NodeOp.Remove 1)), ?_, ?_⟩
      · simp only [hk, hlk, Option.bind_eq_bind, hsetp, Option.some_bind]
      · refine ⟨hinv.hops, by rw [List.length_set]; exact hinv.hplan, ?_, hinv.hlastp, ?_⟩
        · intro p i hpi
          rcases hinv.hent p i hpi with ⟨h1, h2, h3⟩
          exact ⟨h1, by omega, h3⟩
        · intro hmv
          exact hinv.hmoved hmv

theorem diff_middles_total_step (f : Nat)
    (IH : ∀ old new, Valid old new → 4 * nodeSize old ≤ f →
      (diffF f old new).isSome = true) :
    ∀ (off : Nat) (omid nmid : List VNode),
      (∀ c ∈ omid, (VNode.key c).isSome = true) →
      (∀ c ∈ nmid, (VNode.key c).isSome = true) →
      (omid.filterMap VNode.key).Nodup →
      (nmid.filterMap VNode.key).Nodup →
      (∀ c ∈ omid, ∀ n ∈ nmid, VNode.key c = VNode.key n → Valid c n) →
      nmid ≠ [] → 4 * listSize omid ≤ f →
      (diff_middlesF (f + 1) off omid nmid).isSome = true := by
  intro off omid nmid hok hnk hond hnnd hpairs hnne hfuel
  simp only [diff_middlesF, Option.bind_eq_bind, Option.pure_def]
  apply isSome_bind_of
  · apply mapM_isSome_of
    intro x hx
    have hc : x.2 ∈ nmid := List.get?_mem (enum_mem_spec nmid x hx)
    rcases Option.isSome_iff_exists.1 (hnk x.2 hc) with ⟨k, hk⟩
    simp [hk]
  intro kidx hkidx
  have hkfact : ∀ k p, lookupLast kidx k = some p →
      p < nmid.length ∧ ∃ n, nmid.get? p = some n ∧ VNode.key n = some k := by
    intro k p hlk
    have hmem := lookupLast_mem kidx k p hlk
    rcases mapM_some_mem _ nmid.enum kidx hkidx (k, p) hmem with ⟨ic, hicm, hicv⟩
    have hspec := enum_mem_spec nmid ic hicm
    have hcm : ic.2 ∈ nmid := List.get?_mem hspec
    rcases Option.isSome_iff_exists.1 (hnk ic.2 hcm) with ⟨k0, hk0⟩
    simp only [hk0] at hicv
    have hk0k : k0 = k := congrArg Prod.fst (Option.some.inj hicv)
    have hicp : ic.1 = p := congrArg Prod.snd (Option.some.inj hicv)
    subst hk0k
    rw [hicp] at hspec
    exact ⟨(List.get?_eq_some.1 hspec).1, ic.2, hspec, hk0⟩
  have hinit : ScanInv omid nmid kidx 0
      (List.replicate nmid.length (none : Option Nat), 0, false, 0,
        List.replicate omid.length (NodeOp.Skip 1)) := by
    refine ⟨by simp, by simp, ?_, Or.inl rfl, ?_⟩
    · intro p i hpi
      rw [getD_replicate] at hpi
      cases hpi
    · intro hmv
      simp at hmv
  have hstep := fun t c s0 hg hI =>
    scan_step omid nmid kidx hok hond hkfact t c s0 hg hI
  apply isSome_bind_of
  · exact foldlM_indexed_isSome _ omid (ScanInv omid nmid kidx) _ hinit hstep
  intro st hst
  rcases foldlM_indexed_inv_of_eq _ omid (ScanInv omid nmid kidx) hstep _ hinit st hst with
    ⟨tf, hinv⟩
  have hinsstep : ∀ (acc : List (Nat × VNode)) (x : Nat × VNode), x ∈ nmid.enum →
      ∃ acc2, (match st.1.get? x.1 with
        | none => none
        | some none => some (acc ++ [(off + x.1, x.2)])
        | some (some _) => some acc) = some acc2 := by
    intro acc x hx
    have hxlen : x.1 < nmid.length := (List.get?_eq_some.1 (enum_mem_spec nmid x hx)).1
    have hxops : x.1 < st.1.length := by
      rw [hinv.hops]
      exact hxlen
    have hg : st.1.get? x.1 = some (st.1.getD x.1 none) :=
      get?_eq_some_getD st.1 x.1 none hxops
    cases hv : st.1.getD x.1 none with
    | none =>
        refine ⟨acc ++ [(off + x.1, x.2)], ?_⟩
        rw [hv] at hg
        simp only [hg]
    | some z =>
        refine ⟨acc, ?_⟩
        rw [hv] at hg
        simp only [hg]
  have hplis : st.2.2.1 = true → (positions_lis st.1).isSome = true := by
    intro hmv
    have hne1 : st.1 ≠ [] := by
      apply List.ne_nil_of_length_pos
      rw [hinv.hops]
      exact List.length_pos.2 hnne
    have hnf : ¬((∀ x ∈ st.1, x.isSome = true) ∧
        List.Pairwise (· < ·) (st.1.filterMap id)) := by
      rintro ⟨hall, hpw⟩
      rcases hinv.hmoved hmv with ⟨p1, p2, i1, i2, h12, hp1len, hii, he1, he2⟩
      have hv1 : valAt st.1 p1 = i1 := by
        rw [valAt, he1]
        rfl
      have hv2 : valAt st.1 p2 = i2 := by
        rw [valAt, he2]
        rfl
      rw [filterMap_id_eq_map_valAt st.1 hall] at hpw
      have hp1l : p1 < st.1.length := by
        rw [hinv.hops]
        exact hp1len
      have hp2l : p2 < st.1.length := by omega
      have hmaplen : ((List.range st.1.length).map (valAt st.1)).length = st.1.length := by
        rw [List.length_map, List.length_range]
      have hlt := List.pairwise_iff_getElem.1 hpw p2 p1
        (by rw [hmaplen]; exact hp2l) (by rw [hmaplen]; exact hp1l) h12
      simp only [List.getElem_map, List.getElem_range] at hlt
      rw [hv1, hv2] at hlt
      omega
    rcases positions_lis_spec st.1 hne1 (hmax_of_not_full st.1 hnf) with ⟨idxs, heq, _, _⟩
    rw [heq]
    rfl
  have hmvstep : ∀ (lis : List Nat) (acc : List NodeOp × Nat) (x : Nat × VNode),
      x ∈ omid.enum → acc.1.length = omid.length →
      ∃ acc2, (match VNode.key x.2 with
        | none => none
        | some k =>
          match lookupLast kidx k with
          | some new_position => do
              let new_child ← nmid.get? new_position
              let d ← diffF f x.2 new_child
              if acc.2 < lis.length ∧ lis.get? acc.2 = some x.1 then do
                let planned' ← setO acc.1 x.1 d
                some (planned', acc.2 + 1)
              else do
                let planned' ← setO acc.1 x.1 (moveOf (off + new_position) d)
                some (planned', acc.2)
          | none => some (acc.1, acc.2)) = some acc2 ∧ acc2.1.length = omid.length := by
    intro lis acc x hx hlen
    have hcmem : x.2 ∈ omid := List.get?_mem (enum_mem_spec omid x hx)
    have hxlen : x.1 < omid.length := (List.get?_eq_some.1 (enum_mem_spec omid x hx)).1
    rcases Option.isSome_iff_exists.1 (hok x.2 hcmem) with ⟨k, hkk⟩
    cases hlknp : lookupLast kidx k with
    | none =>
        refine ⟨(acc.1, acc.2), ?_, hlen⟩
        simp only [hkk, hlknp]
    | some np =>
        rcases hkfact k np hlknp with ⟨hnplen, n, hnget, hnkey⟩
        have hvcn : Valid x.2 n :=
          hpairs x.2 hcmem n (List.get?_mem hnget) (by rw [hkk, hnkey])
        have hfn : 4 * nodeSize x.2 ≤ f := by
          have := nodeSize_lt_listSize_of_mem hcmem
          omega
        rcases Option.isSome_iff_exists.1 (IH x.2 n hvcn hfn) with ⟨d, hdd⟩
        have hsetlen : x.1 < acc.1.length := by
          rw [hlen]
          exact hxlen
        by_cases hcnd : acc.2 < lis.length ∧ lis.get? acc.2 = some x.1
        · refine ⟨(acc.1.set x.1 d, acc.2 + 1), ?_,
            by rw [List.length_set]; exact hlen⟩
          have hsd : setO acc.1 x.1 d = some (acc.1.set x.1 d) := by
            rw [setO, if_pos hsetlen]
          simp only [hkk, hlknp, hnget, Option.bind_eq_bind, hdd, Option.some_bind]
          rw [if_pos hcnd]
          simp only [hsd, Option.some_bind]
        · refine ⟨(acc.1.set x.1 (moveOf (off + np) d), acc.2), ?_,
            by rw [List.length_set]; exact hlen⟩
          have hsd : setO acc.1 x.1 (moveOf (off + np) d) =
              some (acc.1.set x.1 (moveOf (off + np) d)) := by
            rw [setO, if_pos hsetlen]
          simp only [hkk, hlknp, hnget, Option.bind_eq_bind, hdd, Option.some_bind]
          rw [if_neg hcnd]
          simp only [hsd, Option.some_bind]
  by_cases hcond : omid.length - st.2.2.2.1 ≠ nmid.length
  · rw [if_pos hcond]
    apply isSome_bind_of
    · apply foldlM_isSome_of _ (fun _ : List (Nat × VNode) => True) _ _ trivial
      intro acc x hx _
      rcases hinsstep acc x hx with ⟨acc2, ha⟩
      exact ⟨acc2, ha, trivial⟩
    intro inserts hins
    dsimp only
    by_cases hmv : st.2.2.1 = true
    · rw [if_pos hmv]
      apply isSome_bind_of (positions_lis st.1) _ (hplis hmv)
      intro lis hlis
      dsimp only
      apply isSome_bind_of
      · apply foldlM_isSome_of _ (fun acc : List NodeOp × Nat => acc.1.length = omid.length)
            _ _ hinv.hplan
        intro acc x hx hlen
        exact hmvstep lis acc x hx hlen
      intro res hres
      rfl
    · rw [if_neg hmv]
      rfl
  · rw [if_neg hcond]
    apply isSome_bind_of (some ([] : List (Nat × VNode))) _ rfl
    intro inserts hins
    dsimp only
    by_cases hmv : st.2.2.1 = true
    · rw [if_pos hmv]
      apply isSome_bind_of (positions_lis st.1) _ (hplis hmv)
      intro lis hlis
      dsimp only
      apply isSome_bind_of
      · apply foldlM_isSome_of _ (fun acc : List NodeOp × Nat => acc.1.length = omid.length)
            _ _ hinv.hplan
        intro acc x hx hlen
        exact hmvstep lis acc x hx hlen
      intro res hres
      rfl
    · rw [if_neg hmv]
      rfl

theorem middle_ops_total_step (f : Nat)
    (IH4 : ∀ off omid nmid, MiddleOKWith Valid omid nmid → nmid ≠ [] →
      4 * listSize omid + 1 ≤ f → (diff_middlesF f off omid nmid).isSome = true) :
    ∀ pl olds news oml nml, (1 ≤ nml → pl + nml ≤ news.length) →
      (1 ≤ oml → 1 ≤ nml →
        MiddleOKWith Valid ((olds.drop pl).take oml) ((news.drop pl).take nml)) →
      4 * listSize olds + 2 ≤ f + 1 →
      (middle_ops (f + 1) pl olds news oml nml).isSome = true := by
  intro pl olds news oml nml hb hmid hfuel
  cases oml with
  | zero =>
      cases nml with
      | zero => rfl
      | succ k =>
          simp only [middle_ops]
          apply isSome_bind_of
          · apply mapM_isSome_of
            intro i hi
            have hi2 := List.mem_range'_1.1 hi
            have hlt : i < news.length := by
              have := hb (by omega)
              omega
            have hg : news.get? i = some (news.getD i (VNode.Text "")) :=
              get?_eq_some_getD _ i _ hlt
            simp only [hg, Option.bind_eq_bind, Option.some_bind]
            rfl
          intro ins hins
          rfl
  | succ om =>
      cases nml with
      | zero => rfl
      | succ nm =>
          simp only [middle_ops]
          refine IH4 pl _ _ (hmid (by omega) (by omega)) ?_ ?_
          · apply List.ne_nil_of_length_pos
            rw [List.length_take, List.length_drop]
            have := hb (by omega)
            omega
          · have := listSize_slice_le pl (om + 1) olds
            omega

theorem diff_children_total_step (f : Nat)
    (IH1 : ∀ old new, Valid old new → 4 * nodeSize old ≤ f →
      (diffF f old new).isSome = true)
    (IH3 : ∀ pl olds news oml nml, (1 ≤ nml → pl + nml ≤ news.length) →
      (1 ≤ oml → 1 ≤ nml →
        MiddleOKWith Valid ((olds.drop pl).take oml) ((news.drop pl).take nml)) →
      4 * listSize olds + 2 ≤ f → (middle_ops f pl olds news oml nml).isSome = true) :
    ∀ olds news, ValidChildren olds news → 4 * listSize olds + 3 ≤ f + 1 →
      (diff_childrenF (f + 1) olds news).isSome = true := by
  intro olds news hvc hfuel
  cases olds with
  | nil =>
      cases news with
      | nil => rfl
      | cons n ns => rfl
  | cons o os =>
      cases news with
      | nil => rfl
      | cons n ns =>
          cases hvc with
          | main _ _ hpre hsuf hm1 hm2 hm3 hm4 hm5 =>
          simp only [diff_childrenF]
          apply isSome_bind_of
          · apply mapM_isSome_of
            intro i hi
            have hilt : i < commonPrefixLen (o :: os) (n :: ns) := List.mem_range.1 hi
            have hio : i < (o :: os).length := by
              have := (commonPrefixLen_le (o :: os) (n :: ns)).1
              omega
            have hin : i < (n :: ns).length := by
              have := (commonPrefixLen_le (o :: os) (n :: ns)).2
              omega
            have hgo : (o :: os).get? i = some ((o :: os).getD i (VNode.Text "")) :=
              get?_eq_some_getD _ i _ hio
            have hgn : (n :: ns).get? i = some ((n :: ns).getD i (VNode.Text "")) :=
              get?_eq_some_getD _ i _ hin
            simp only [hgo, hgn, Option.bind_eq_bind, Option.some_bind]
            apply IH1
            · exact hpre i _ _ hilt hgo hgn
            · have hmem : (o :: os).getD i (VNode.Text "") ∈ o :: os :=
                List.get?_mem hgo
              have := nodeSize_lt_listSize_of_mem hmem
              omega
          intro prefix_ops hpre_ops
          apply isSome_bind_of
          · apply IH3
            · intro h1
              omega
            · intro h1 h2
              exact ⟨hm1 h1 h2, hm2 h1 h2, hm3 h1 h2, hm4 h1 h2, hm5 h1 h2⟩
            · omega
          intro middle hmiddle
          apply isSome_bind_of
          · apply mapM_isSome_of
            intro i hi
            have hilt := List.mem_range.1 hi
            have hsle := commonSuffixLenAux_le
              (min (o :: os).length (n :: ns).length - commonPrefixLen (o :: os) (n :: ns))
              (o :: os).reverse (n :: ns).reverse
            have hio : (o :: os).length -
                commonSuffixLenAux
                  (min (o :: os).length (n :: ns).length -
                    commonPrefixLen (o :: os) (n :: ns))
                  (o :: os).reverse (n :: ns).reverse + i < (o :: os).length := by
              omega
            have hin : (n :: ns).length -
                commonSuffixLenAux
                  (min (o :: os).length (n :: ns).length -
                    commonPrefixLen (o :: os) (n :: ns))
                  (o :: os).reverse (n :: ns).reverse + i < (n :: ns).length := by
              omega
            have hgo := get?_eq_some_getD (o :: os) _ (VNode.Text "") hio
            have hgn := get?_eq_some_getD (n :: ns) _ (VNode.Text "") hin
            simp only [hgo, hgn, Option.bind_eq_bind, Option.some_bind]
            apply IH1
            · exact hsuf i _ _ hilt hgo hgn
            · have hmem : (o :: os).getD ((o :: os).length -
                  commonSuffixLenAux
                    (min (o :: os).length (n :: ns).length -
                      commonPrefixLen (o :: os) (n :: ns))
                    (o :: os).reverse (n :: ns).reverse + i) (VNode.Text "") ∈ o :: os :=
                List.get?_mem hgo
              have := nodeSize_lt_listSize_of_mem hmem
              omega
          intro suffix_ops hsuffix
          rfl

theorem diffF_total_step (f : Nat)
    (IH2 : ∀ olds news, ValidChildren olds news → 4 * listSize olds + 3 ≤ f →
      (diff_childrenF f olds news).isSome = true) :
    ∀ old new, Valid old new → 4 * nodeSize old ≤ f + 1 →
      (diffF (f + 1) old new).isSome = true := by
  intro old new hv hfuel
  cases hv with
  | textL s new => cases new <;> rfl
  | textR old s => cases old <;> rfl
  | tag_ne ot ok oa ocl ochs nt nk na ncl nchs hne =>
      simp only [diffF]
      rw [if_pos hne]
      rfl
  | key_ne t ok oa ocl ochs nk na ncl nchs hne =>
      simp only [diffF]
      rw [if_neg (fun h => h rfl), if_pos hne]
      rfl
  | elems t k oa ocl ochs na ncl nchs hvc =>
      simp only [diffF]
      rw [if_neg (fun h => h rfl), if_neg (fun h => h rfl)]
      have hsz : nodeSize (VNode.Element t k oa ocl ochs) = 1 + listSize ochs := rfl
      have hcd := IH2 ochs nchs hvc (by omega)
      rcases Option.isSome_iff_exists.1 hcd with ⟨pr, hpr⟩
      rcases pr with ⟨cd, ci⟩
      simp only [hpr]
      cases hda : diff_attributes ocl ncl oa na <;> cases cd <;> cases ci <;> rfl

theorem diff_total_rec : ∀ f,
    (∀ old new, Valid old new → 4 * nodeSize old ≤ f →
      (diffF f old new).isSome = true) ∧
    (∀ olds news, ValidChildren olds news → 4 * listSize olds + 3 ≤ f →
      (diff_childrenF f olds news).isSome = true) ∧
    (∀ pl olds news oml nml, (1 ≤ nml → pl + nml ≤ news.length) →
      (1 ≤ oml → 1 ≤ nml →
        MiddleOKWith Valid ((olds.drop pl).take oml) ((news.drop pl).take nml)) →
      4 * listSize olds + 2 ≤ f → (middle_ops f pl olds news oml nml).isSome = true) ∧
    (∀ off omid nmid, MiddleOKWith Valid omid nmid → nmid ≠ [] →
      4 * listSize omid + 1 ≤ f → (diff_middlesF f off omid nmid).isSome = true) := by
  intro f
  induction f with
  | zero =>
      refine ⟨?_, ?_, ?_, ?_⟩
      · intro old new hv hfuel
        have := nodeSize_pos old
        exact absurd hfuel (by omega)
      · intro olds news hvc hfuel
        exact absurd hfuel (by omega)
      · intro pl olds news oml nml hb hmid hfuel
        exact absurd hfuel (by omega)
      · intro off omid nmid hmok hnne hfuel
        exact absurd hfuel (by omega)
  | succ f ih =>
      obtain ⟨ih1, ih2, ih3, ih4⟩ := ih
      refine ⟨diffF_total_step f ih2, diff_children_total_step f ih1 ih3,
        middle_ops_total_step f ih4, ?_⟩
      intro off omid nmid hmok hnne hfuel
      rcases hmok with ⟨h1, h2, h3, h4, h5⟩
      exact diff_middles_total_step f ih1 off omid nmid h1 h2 h3 h4 h5 hnne (by omega)

/-- C9: `diff` is total under the keyed-middle precondition.  `Valid old
new` formalises the claim's precondition: along every children comparison
the reconciler performs (common-prefix pairs, common-suffix pairs and
key-matched middle pairs, after prefix/suffix trimming), whenever both
middle regions are non-empty every child of both middles carries a key and
keys are unique among siblings.  Under it `diff(old, new)` returns a
`NodeOp`: every `key().unwrap()` succeeds and every vector index used by
the reconciler and by `positions_lis` (including `m[new_l]`, `p[i]` and
the `mid - 1` step of the binary search) stays in bounds, so no panic
(`none`) is reached. -/
theorem C9_diff_total (old new : VNode) (h : Valid old new) :
    (diff old new).isSome = true :=
  (diff_total_rec (4 * nodeSize old)).1 old new h le_rfl

theorem C9_diff_total_witness :
    (diff
      (VNode.Element "div" none [] [] [VNode.Element "a" (some "x") [] [] [],
        VNode.Element "b" (some "y") [] [] []])
      (VNode.Element "div" none [] [] [VNode.Element "b" (some "y") [] [] [],
        VNode.Element "a" (some "x") [] [] []])).isSome = true :=
  C9_diff_total _ _ (Valid.elems _ _ _ _ _ _ _ _ (ValidChildren.main _ _
    (fun i o n hi _ _ => absurd hi (Nat.not_lt_zero i))
    (fun i o n hi _ _ => absurd hi (Nat.not_lt_zero i))
    (fun _ _ => by decide)
    (fun _ _ => by decide)
    (fun _ _ => by decide)
    (fun _ _ => by decide)
    (fun _ _ => by
      intro c hc n hn hk
      rcases List.mem_cons.1 hc with rfl | hc2
      · rcases List.mem_cons.1 hn with rfl | hn2
        · exact absurd hk (by decide)
        · rcases List.mem_singleton.1 hn2 with rfl
          exact Valid.elems _ _ _ _ _ _ _ _ (ValidChildren.oldNil [])
      · rcases List.mem_singleton.1 hc2 with rfl
        rcases List.mem_cons.1 hn with rfl | hn2
        · exact Valid.elems _ _ _ _ _ _ _ _ (ValidChildren.oldNil [])
        · rcases List.mem_singleton.1 hn2 with rfl
          exact absurd hk (by decide))))
